import Mathlib

/-!
Verification of the grafana unified resource storage contract
(src/pkg/storage/unified/resource/resource.proto) and of the plugin
client decorator (src/pkg/plugins/manager/client/decorator.go).

The decorator is embedded directly from the Go source.  The resource
store engine itself is not part of the given sources (only its wire
contract is), so the store is modelled from the specification text and
the proto contract; every such definition carries a doc comment saying
so.
-/

namespace Grafana

/-! ## Byte-wise string ordering

Lexicographic comparison of strings by character code, used as the
reference key ordering of the specification (namespace, group,
resource, name lexicographic ascending).  Defined by structural
recursion so that concrete instances evaluate inside the kernel. -/

/-- Three way lexicographic comparison of two character lists by code point. -/
def charListCmp : List Char → List Char → Ordering
  | [], [] => .eq
  | [], _ :: _ => .lt
  | _ :: _, [] => .gt
  | a :: as, b :: bs =>
    if a.toNat < b.toNat then .lt
    else if b.toNat < a.toNat then .gt
    else charListCmp as bs

/-- Three way lexicographic comparison of two strings. -/
def strCmp (a b : String) : Ordering := charListCmp a.data b.data

/-! ## Plugin client decorator

Shallow embedding of src/pkg/plugins/manager/client/decorator.go.
Go pointers that may be nil become Option values; a Go call that
returns (result, error) becomes an Except value; the backend context
helpers become pure record updates. -/

namespace PluginClient

/-- Endpoint constants of the backend package used by the decorator. -/
inductive Endpoint where
  | queryData
  | callResource
  | collectMetrics
  | checkHealth
  | subscribeStream
  | publishStream
  | runStream
  | validateAdmission
  | mutateAdmission
  | convertObject
deriving DecidableEq

/-- A user carried inside a plugin context. -/
structure User where
  id : Nat
deriving DecidableEq

/-- The plugin context carried by every backend request. -/
structure PluginContext where
  user : Option User
deriving DecidableEq

/-- Errors of the Go client package.  The sentinel errNilRequest is its
own constructor; errors built with errors.New carry their message. -/
inductive GoErr where
  | errNilRequest
  | goError (msg : String)
deriving DecidableEq

structure QueryDataRequest where
  pluginContext : PluginContext
deriving DecidableEq

structure QueryDataResponse where
  val : Nat
deriving DecidableEq

structure CallResourceRequest where
  pluginContext : PluginContext
deriving DecidableEq

structure CallResourceResponseSender where
  id : Nat
deriving DecidableEq

structure CollectMetricsRequest where
  pluginContext : PluginContext
deriving DecidableEq

structure CollectMetricsResult where
  val : Nat
deriving DecidableEq

structure CheckHealthRequest where
  pluginContext : PluginContext
deriving DecidableEq

structure CheckHealthResult where
  val : Nat
deriving DecidableEq

structure SubscribeStreamRequest where
  pluginContext : PluginContext
deriving DecidableEq

structure SubscribeStreamResponse where
  val : Nat
deriving DecidableEq

structure PublishStreamRequest where
  pluginContext : PluginContext
deriving DecidableEq

structure PublishStreamResponse where
  val : Nat
deriving DecidableEq

structure RunStreamRequest where
  pluginContext : PluginContext
deriving DecidableEq

structure StreamSender where
  id : Nat
deriving DecidableEq

structure AdmissionRequest where
  pluginContext : PluginContext
deriving DecidableEq

structure ValidationResponse where
  val : Nat
deriving DecidableEq

structure MutationResponse where
  val : Nat
deriving DecidableEq

structure ConversionRequest where
  pluginContext : PluginContext
deriving DecidableEq

structure ConversionResponse where
  val : Nat
deriving DecidableEq

/-- The request context as far as the decorator manipulates it. -/
structure Ctx where
  endpoint : Option Endpoint
  pluginContext : Option PluginContext
  user : Option User
deriving DecidableEq

/-- backend.WithEndpoint. -/
def withEndpoint (ctx : Ctx) (e : Endpoint) : Ctx := { ctx with endpoint := some e }

/-- backend.WithPluginContext. -/
def withPluginContext (ctx : Ctx) (pc : PluginContext) : Ctx :=
  { ctx with pluginContext := some pc }

/-- backend.WithUser. -/
def withUser (ctx : Ctx) (u : Option User) : Ctx := { ctx with user := u }

/-- The plugins.Client interface: one function per method.  The Go
methods that return only an error are modelled with Except GoErr Unit. -/
structure Client where
  queryData : Ctx → QueryDataRequest → Except GoErr QueryDataResponse
  callResource : Ctx → CallResourceRequest → CallResourceResponseSender → Except GoErr Unit
  collectMetrics : Ctx → CollectMetricsRequest → Except GoErr CollectMetricsResult
  checkHealth : Ctx → CheckHealthRequest → Except GoErr CheckHealthResult
  subscribeStream : Ctx → SubscribeStreamRequest → Except GoErr SubscribeStreamResponse
  publishStream : Ctx → PublishStreamRequest → Except GoErr PublishStreamResponse
  runStream : Ctx → RunStreamRequest → StreamSender → Except GoErr Unit
  validateAdmission : Ctx → AdmissionRequest → Except GoErr ValidationResponse
  mutateAdmission : Ctx → AdmissionRequest → Except GoErr MutationResponse
  convertObjects : Ctx → ConversionRequest → Except GoErr ConversionResponse

/-- plugins.ClientMiddleware: wraps a client into a new client. -/
structure ClientMiddleware where
  createClientMiddleware : Client → Client

/-- The Decorator struct of decorator.go. -/
structure Decorator where
  client : Client
  middlewares : List ClientMiddleware

/-- NewDecorator: fails when the client is nil, otherwise stores the
client and the middlewares. -/
def NewDecorator (client : Option Client) (middlewares : List ClientMiddleware) :
    Except GoErr Decorator :=
  match client with
  | none => .error (.goError "client cannot be nil")
  | some c => .ok { client := c, middlewares := middlewares }

/-- One step of the in-place swap in reverseMiddlewares: exchange the
elements at positions i and j.  Out of range indices leave the list
unchanged (they never occur in the loop). -/
def listSwap (l : List α) (i j : Nat) : List α :=
  match l[i]?, l[j]? with
  | some a, some b => (l.set i b).set j a
  | _, _ => l

/-- The two pointer swap loop of reverseMiddlewares, on the copied
slice: while i < j swap positions i and j and move both inward. -/
def swapLoop (l : List α) (i j : Nat) : List α :=
  if i < j then swapLoop (listSwap l i j) (i + 1) (j - 1) else l
termination_by j - i
decreasing_by omega

/-- reverseMiddlewares: copy the slice (value semantics of the pure
embedding) and reverse the copy in place with the swap loop. -/
def reverseMiddlewares (middlewares : List ClientMiddleware) : List ClientMiddleware :=
  swapLoop middlewares 0 (middlewares.length - 1)

/-- clientFromMiddlewares: an empty middleware list returns the final
client unchanged; otherwise the reversed list is folded over the final
client, each middleware wrapping the client built so far. -/
def clientFromMiddlewares (middlewares : List ClientMiddleware) (finalClient : Client) :
    Client :=
  if middlewares.isEmpty then finalClient
  else
    (reverseMiddlewares middlewares).foldl
      (fun next m => m.createClientMiddleware next) finalClient

/-- Decorator.QueryData. -/
def Decorator.queryData (d : Decorator) (ctx : Ctx) (req : Option QueryDataRequest) :
    Except GoErr QueryDataResponse :=
  match req with
  | none => .error .errNilRequest
  | some r =>
    let ctx := withEndpoint ctx .queryData
    let ctx := withPluginContext ctx r.pluginContext
    let ctx := withUser ctx r.pluginContext.user
    let client := clientFromMiddlewares d.middlewares d.client
    client.queryData ctx r

/-- Decorator.CallResource.  The nil sender check happens after the
context updates but before the middleware chain is built. -/
def Decorator.callResource (d : Decorator) (ctx : Ctx) (req : Option CallResourceRequest)
    (sender : Option CallResourceResponseSender) : Except GoErr Unit :=
  match req with
  | none => .error .errNilRequest
  | some r =>
    let ctx := withEndpoint ctx .callResource
    let ctx := withPluginContext ctx r.pluginContext
    let ctx := withUser ctx r.pluginContext.user
    match sender with
    | none => .error (.goError "sender cannot be nil")
    | some snd =>
      let client := clientFromMiddlewares d.middlewares d.client
      client.callResource ctx r snd

/-- Decorator.CollectMetrics. -/
def Decorator.collectMetrics (d : Decorator) (ctx : Ctx)
    (req : Option CollectMetricsRequest) : Except GoErr CollectMetricsResult :=
  match req with
  | none => .error .errNilRequest
  | some r =>
    let ctx := withEndpoint ctx .collectMetrics
    let ctx := withPluginContext ctx r.pluginContext
    let ctx := withUser ctx r.pluginContext.user
    let client := clientFromMiddlewares d.middlewares d.client
    client.collectMetrics ctx r

/-- Decorator.CheckHealth. -/
def Decorator.checkHealth (d : Decorator) (ctx : Ctx)
    (req : Option CheckHealthRequest) : Except GoErr CheckHealthResult :=
  match req with
  | none => .error .errNilRequest
  | some r =>
    let ctx := withEndpoint ctx .checkHealth
    let ctx := withPluginContext ctx r.pluginContext
    let ctx := withUser ctx r.pluginContext.user
    let client := clientFromMiddlewares d.middlewares d.client
    client.checkHealth ctx r

/-- Decorator.SubscribeStream. -/
def Decorator.subscribeStream (d : Decorator) (ctx : Ctx)
    (req : Option SubscribeStreamRequest) : Except GoErr SubscribeStreamResponse :=
  match req with
  | none => .error .errNilRequest
  | some r =>
    let ctx := withEndpoint ctx .subscribeStream
    let ctx := withPluginContext ctx r.pluginContext
    let ctx := withUser ctx r.pluginContext.user
    let client := clientFromMiddlewares d.middlewares d.client
    client.subscribeStream ctx r

/-- Decorator.PublishStream. -/
def Decorator.publishStream (d : Decorator) (ctx : Ctx)
    (req : Option PublishStreamRequest) : Except GoErr PublishStreamResponse :=
  match req with
  | none => .error .errNilRequest
  | some r =>
    let ctx := withEndpoint ctx .publishStream
    let ctx := withPluginContext ctx r.pluginContext
    let ctx := withUser ctx r.pluginContext.user
    let client := clientFromMiddlewares d.middlewares d.client
    client.publishStream ctx r

/-- Decorator.RunStream.  The nil sender check happens after the
context updates but before the middleware chain is built. -/
def Decorator.runStream (d : Decorator) (ctx : Ctx) (req : Option RunStreamRequest)
    (sender : Option StreamSender) : Except GoErr Unit :=
  match req with
  | none => .error .errNilRequest
  | some r =>
    let ctx := withEndpoint ctx .runStream
    let ctx := withPluginContext ctx r.pluginContext
    let ctx := withUser ctx r.pluginContext.user
    match sender with
    | none => .error (.goError "sender cannot be nil")
    | some snd =>
      let client := clientFromMiddlewares d.middlewares d.client
      client.runStream ctx r snd

/-- Decorator.ValidateAdmission. -/
def Decorator.validateAdmission (d : Decorator) (ctx : Ctx)
    (req : Option AdmissionRequest) : Except GoErr ValidationResponse :=
  match req with
  | none => .error .errNilRequest
  | some r =>
    let ctx := withEndpoint ctx .validateAdmission
    let ctx := withPluginContext ctx r.pluginContext
    let ctx := withUser ctx r.pluginContext.user
    let client := clientFromMiddlewares d.middlewares d.client
    client.validateAdmission ctx r

/-- Decorator.MutateAdmission. -/
def Decorator.mutateAdmission (d : Decorator) (ctx : Ctx)
    (req : Option AdmissionRequest) : Except GoErr MutationResponse :=
  match req with
  | none => .error .errNilRequest
  | some r =>
    let ctx := withEndpoint ctx .mutateAdmission
    let ctx := withPluginContext ctx r.pluginContext
    let ctx := withUser ctx r.pluginContext.user
    let client := clientFromMiddlewares d.middlewares d.client
    client.mutateAdmission ctx r

/-- Decorator.ConvertObjects. -/
def Decorator.convertObjects (d : Decorator) (ctx : Ctx)
    (req : Option ConversionRequest) : Except GoErr ConversionResponse :=
  match req with
  | none => .error .errNilRequest
  | some r =>
    let ctx := withEndpoint ctx .convertObject
    let ctx := withPluginContext ctx r.pluginContext
    let ctx := withUser ctx r.pluginContext.user
    let client := clientFromMiddlewares d.middlewares d.client
    client.convertObjects ctx r

/-! ### Reference heap model for the non-mutation claim

A Go slice aliases a backing array.  To state that reverseMiddlewares
leaves the contents reachable through the argument slice unchanged, a
small reference heap is modelled: make allocates a fresh cell, copy
fills it, and the swap loop mutates only that fresh cell. -/

/-- A heap of middleware slices, addressed by allocation index. -/
abbrev Heap := List (List ClientMiddleware)

/-- Read a heap cell. -/
def heapGet (h : Heap) (r : Nat) : List ClientMiddleware := h.getD r []

/-- Overwrite a heap cell. -/
def heapSet (h : Heap) (r : Nat) (v : List ClientMiddleware) : Heap := h.set r v

/-- Allocate a fresh cell holding v and return its address. -/
def heapAlloc (h : Heap) (v : List ClientMiddleware) : Heap × Nat := (h ++ [v], h.length)

/-- The swap loop of reverseMiddlewares acting on the heap cell r. -/
def swapLoopHeap (h : Heap) (r i j : Nat) : Heap :=
  if i < j then swapLoopHeap (heapSet h r (listSwap (heapGet h r) i j)) r (i + 1) (j - 1)
  else h
termination_by j - i
decreasing_by omega

/-- reverseMiddlewares in the reference heap: make a fresh slice, copy
the argument into it, then reverse the copy in place.  Returns the new
heap and the address of the reversed copy. -/
def reverseMiddlewaresHeap (h : Heap) (mref : Nat) : Heap × Nat :=
  let middlewares := heapGet h mref
  let alloc := heapAlloc h middlewares
  (swapLoopHeap alloc.1 alloc.2 0 (middlewares.length - 1), alloc.2)

/-- A middleware that wraps a client with the identity, for concrete
witnesses. -/
def idMiddleware : ClientMiddleware := { createClientMiddleware := fun c => c }

/-- A concrete client whose every method fails, for concrete witnesses. -/
def nopClient : Client where
  queryData := fun _ _ => .error (.goError "nop")
  callResource := fun _ _ _ => .error (.goError "nop")
  collectMetrics := fun _ _ => .error (.goError "nop")
  checkHealth := fun _ _ => .error (.goError "nop")
  subscribeStream := fun _ _ => .error (.goError "nop")
  publishStream := fun _ _ => .error (.goError "nop")
  runStream := fun _ _ _ => .error (.goError "nop")
  validateAdmission := fun _ _ => .error (.goError "nop")
  mutateAdmission := fun _ _ => .error (.goError "nop")
  convertObjects := fun _ _ => .error (.goError "nop")

end PluginClient

/-! ## Unified resource store

The storage/versioning/watch engine behind the ResourceStore service of
src/pkg/storage/unified/resource/resource.proto.  The engine code is
not among the given sources (only the proto contract is), so every
operational definition below is modelled from the specification text;
the wire shapes follow the proto messages. -/

namespace ResourceStore

/-- ResourceKey of the proto: namespace, group, resource, name.  The
namespace field is called ns because namespace is a Lean keyword. -/
structure ResourceKey where
  ns : String
  group : String
  resource : String
  name : String
deriving DecidableEq

/-- The ordered field list of a key. -/
def keyFields (k : ResourceKey) : List String := [k.ns, k.group, k.resource, k.name]

/-- Lexicographic comparison of string lists by strCmp. -/
def strListCmp : List String → List String → Ordering
  | [], [] => .eq
  | [], _ :: _ => .lt
  | _ :: _, [] => .gt
  | a :: as, b :: bs =>
    match strCmp a b with
    | .eq => strListCmp as bs
    | o => o

/-- Three way comparison of keys in the reference ordering of the
spec: namespace, group, resource, name lexicographic ascending. -/
def keyCmp (a b : ResourceKey) : Ordering := strListCmp (keyFields a) (keyFields b)

/-- Strict key ordering. -/
def keyLt (a b : ResourceKey) : Bool :=
  match keyCmp a b with
  | .lt => true
  | _ => false

/-- Reflexive key ordering. -/
def keyLe (a b : ResourceKey) : Bool :=
  match keyCmp a b with
  | .gt => false
  | _ => true

/-- Modelled from the spec: the Record stored per key, section 3 of
the design.  The opaque payload is a string; the hash is derived from
the value (no claim depends on the digest function, so the derivation
is the payload itself); the decoded label metadata used for advisory
filtering is kept alongside. -/
structure Record where
  value : String
  labels : List (String × String)
  resourceVersion : Nat
  size : Nat
  hash : String
deriving DecidableEq

/-- Event type enum of the proto WatchEvent. -/
inductive EventType where
  | unknown
  | added
  | modified
  | deleted
  | bookmark
  | error
deriving DecidableEq

/-- Modelled from the spec: one entry of the commit log consumed by
the WatchHub; carries the event type, the key, the assigned version,
the new payload and labels, and the previous version and payload for
updates and deletes. -/
structure Commit where
  type : EventType
  key : ResourceKey
  version : Nat
  value : String
  labels : List (String × String)
  previous : Option (Nat × String)
deriving DecidableEq

/-- Modelled from the spec: the whole store state.  counter is the
persisted high water mark of the VersionAuthority; records is the
current live Record per key; log is the append only commit log in
version order. -/
structure StoreState where
  counter : Nat
  records : List (ResourceKey × Record)
  log : List Commit
deriving DecidableEq

/-- The empty store. -/
def initialState : StoreState := { counter := 0, records := [], log := [] }

/-- Lookup in an association list of records. -/
def getRec : List (ResourceKey × Record) → ResourceKey → Option Record
  | [], _ => none
  | (k, r) :: rest, key => if k = key then some r else getRec rest key

/-- Insert or replace in an association list of records. -/
def setRec : List (ResourceKey × Record) → ResourceKey → Record → List (ResourceKey × Record)
  | [], key, r => [(key, r)]
  | (k, r0) :: rest, key, r =>
    if k = key then (key, r) :: rest else (k, r0) :: setRec rest key r

/-- Remove from an association list of records. -/
def delRec : List (ResourceKey × Record) → ResourceKey → List (ResourceKey × Record)
  | [], _ => []
  | (k, r0) :: rest, key => if k = key then rest else (k, r0) :: delRec rest key

/-- Modelled from the spec: the hash of a Record is derived from its
value; the digest function is irrelevant to every claim, so the
derivation is the payload itself. -/
def hashOf (value : String) : String := value

/-- Modelled from the spec: the uid used by the Delete precondition
lives inside the opaque payload, whose decoding is out of scope; the
extraction is therefore the payload itself. -/
def uidOf (value : String) : String := value

/-- Error taxonomy of section 7 of the spec. -/
inductive ErrKind where
  | notFound
  | alreadyExists
  | conflict
  | versionTooOld
  | invalid
deriving DecidableEq

/-- Create requires group and resource to be configured. -/
def validScope (k : ResourceKey) : Bool :=
  if k.group = "" then false else if k.resource = "" then false else true

/-- Update, Delete and Read require the full key. -/
def validKey (k : ResourceKey) : Bool :=
  if validScope k then (if k.name = "" then false else true) else false

/-- CreateResponse: the assigned resource version and the stored value. -/
structure CreateResponse where
  resourceVersion : Nat
  value : String
deriving DecidableEq

/-- UpdateResponse: the assigned resource version and the stored value. -/
structure UpdateResponse where
  resourceVersion : Nat
  value : String
deriving DecidableEq

/-- DeleteResponse: the resource version of the deletion marker. -/
structure DeleteResponse where
  resourceVersion : Nat
deriving DecidableEq

/-- ReadResponse: the resource version and the stored value. -/
structure ReadResponse where
  resourceVersion : Nat
  value : String
deriving DecidableEq

/-- Modelled from the spec: Create generates a unique name when none
is supplied; the generated name is derived from the next version. -/
def effectiveKey (s : StoreState) (key : ResourceKey) : ResourceKey :=
  if key.name = "" then { key with name := "gen-" ++ toString (s.counter + 1) } else key

/-- Modelled from the spec: Create.  Fails Invalid unless group and
resource are set; generates a unique name when none is given; fails
AlreadyExists when a live Record exists at the key; otherwise takes
the next version from the VersionAuthority, stores the Record and
appends exactly one ADDED commit. -/
def createOp (s : StoreState) (key : ResourceKey) (value : String)
    (labels : List (String × String)) : Except ErrKind CreateResponse × StoreState :=
  if validScope key then
    let key := effectiveKey s key
    match getRec s.records key with
    | some _ => (.error .alreadyExists, s)
    | none =>
      let v := s.counter + 1
      let rec0 : Record :=
        { value := value, labels := labels, resourceVersion := v,
          size := value.length, hash := hashOf value }
      let commit : Commit :=
        { type := .added, key := key, version := v, value := value,
          labels := labels, previous := none }
      (.ok { resourceVersion := v, value := value },
        { counter := v, records := setRec s.records key rec0, log := s.log ++ [commit] })
  else (.error .invalid, s)

/-- Modelled from the spec: Update.  Fails Invalid unless the full key
is set, NotFound when no live Record exists, Conflict when the stored
version differs from the expected one; otherwise assigns the next
version, replaces the Record and appends exactly one MODIFIED commit
carrying the prior Record as previous. -/
def updateOp (s : StoreState) (key : ResourceKey) (resourceVersion : Nat) (value : String)
    (labels : List (String × String)) : Except ErrKind UpdateResponse × StoreState :=
  if validKey key then
    match getRec s.records key with
    | none => (.error .notFound, s)
    | some r =>
      if r.resourceVersion ≠ resourceVersion then (.error .conflict, s)
      else
        let v := s.counter + 1
        let rec0 : Record :=
          { value := value, labels := labels, resourceVersion := v,
            size := value.length, hash := hashOf value }
        let commit : Commit :=
          { type := .modified, key := key, version := v, value := value,
            labels := labels, previous := some (r.resourceVersion, r.value) }
        (.ok { resourceVersion := v, value := value },
          { counter := v, records := setRec s.records key rec0, log := s.log ++ [commit] })
  else (.error .invalid, s)

/-- Modelled from the spec: Delete.  Fails Invalid unless the full key
is set, NotFound when no live Record exists, Conflict when the stored
version differs from the expected one or a supplied uid does not match
the stored value; otherwise writes a tombstone at the next version,
removes the live Record and appends exactly one DELETED commit
carrying the prior Record as previous. -/
def deleteOp (s : StoreState) (key : ResourceKey) (resourceVersion : Nat) (uid : String) :
    Except ErrKind DeleteResponse × StoreState :=
  if validKey key then
    match getRec s.records key with
    | none => (.error .notFound, s)
    | some r =>
      if r.resourceVersion ≠ resourceVersion then (.error .conflict, s)
      else if uid ≠ "" ∧ uid ≠ uidOf r.value then (.error .conflict, s)
      else
        let v := s.counter + 1
        let commit : Commit :=
          { type := .deleted, key := key, version := v, value := "",
            labels := [], previous := some (r.resourceVersion, r.value) }
        (.ok { resourceVersion := v },
          { counter := v, records := delRec s.records key, log := s.log ++ [commit] })
  else (.error .invalid, s)

/-- Apply one commit to a keyed snapshot. -/
def applyCommit (m : List (ResourceKey × Record)) (c : Commit) :
    List (ResourceKey × Record) :=
  match c.type with
  | .added =>
    setRec m c.key
      { value := c.value, labels := c.labels, resourceVersion := c.version,
        size := c.value.length, hash := hashOf c.value }
  | .modified =>
    setRec m c.key
      { value := c.value, labels := c.labels, resourceVersion := c.version,
        size := c.value.length, hash := hashOf c.value }
  | .deleted => delRec m c.key
  | _ => m

/-- Modelled from the spec: the state of the collection pinned at
version v, reconstructed from the prefix of the commit log whose
versions do not exceed v. -/
def snapshotAt (s : StoreState) (v : Nat) : List (ResourceKey × Record) :=
  (s.log.filter (fun c => c.version ≤ v)).foldl applyCommit []

/-- Modelled from the spec: Read.  Fails Invalid unless the full key
is set; version 0 (unset in the proto) reads the latest Record; an
explicit version reads the snapshot pinned there (the model retains
the full history, so VersionTooOld never fires), failing Invalid for a
version beyond the high water mark. -/
def readOp (s : StoreState) (key : ResourceKey) (resourceVersion : Nat) :
    Except ErrKind ReadResponse :=
  if validKey key then
    if resourceVersion = 0 then
      match getRec s.records key with
      | none => .error .notFound
      | some r => .ok { resourceVersion := r.resourceVersion, value := r.value }
    else if s.counter < resourceVersion then .error .invalid
    else
      match getRec (snapshotAt s resourceVersion) key with
      | none => .error .notFound
      | some r => .ok { resourceVersion := r.resourceVersion, value := r.value }
  else .error .invalid

/-- A mutating call of the store, for sequences of writes. -/
inductive Op where
  | create (key : ResourceKey) (value : String) (labels : List (String × String))
  | update (key : ResourceKey) (resourceVersion : Nat) (value : String)
      (labels : List (String × String))
  | delete (key : ResourceKey) (resourceVersion : Nat) (uid : String)

/-- Execute one mutating call, keeping only the state. -/
def execOp (s : StoreState) : Op → StoreState
  | .create key value labels => (createOp s key value labels).2
  | .update key resourceVersion value labels => (updateOp s key resourceVersion value labels).2
  | .delete key resourceVersion uid => (deleteOp s key resourceVersion uid).2

/-- Execute a sequence of mutating calls. -/
def execOps (s : StoreState) (ops : List Op) : StoreState := ops.foldl execOp s

/-- Whether a call can mutate the Record at the given key: an Update
or a Delete addressed to that key.  A Create never mutates an existing
live Record: at an occupied key it fails with AlreadyExists. -/
def opMutatesKey (op : Op) (key : ResourceKey) : Bool :=
  match op with
  | .create _ _ _ => false
  | .update k _ _ _ => decide (k = key)
  | .delete k _ _ => decide (k = key)


/-! ### Invariant definitions -/

/-- A commit type that can appear in the log. -/
def changeType (t : EventType) : Prop :=
  t = .added ∨ t = .modified ∨ t = .deleted

/-- Invariant of every reachable store state: log versions are bounded
by the counter, strictly increasing along the log, and every log entry
is a change commit. -/
def LogOk (s : StoreState) : Prop :=
  (∀ c ∈ s.log, c.version ≤ s.counter)
  ∧ ((s.log.map (fun c => c.version)).Pairwise (· < ·))
  ∧ (∀ c ∈ s.log, changeType c.type)

/-- Invariant: every live Record sits at a full valid key. -/
def RecordsOk (s : StoreState) : Prop := ∀ kv ∈ s.records, validKey kv.1 = true

/-- Keys of a keyed collection are pairwise distinct. -/
def KeysOk (m : List (ResourceKey × Record)) : Prop :=
  m.Pairwise (fun x y => x.1 ≠ y.1)

/-! ### List engine -/

/-- Requirement of the proto: one label or field selector clause. -/
structure Requirement where
  key : String
  operator : String
  values : List String
deriving DecidableEq

/-- ListOptions of the proto: collection scope plus best effort label
and field matchers. -/
structure ListOptions where
  key : ResourceKey
  labels : List Requirement
  fields : List Requirement
deriving DecidableEq

/-- ResourceVersionMatch enum of the proto. -/
inductive ResourceVersionMatch where
  | NotOlderThan
  | Exact
deriving DecidableEq

/-- Modelled from the spec: the opaque continuation token encodes the
pinned resource version, the last key yielded, and a fingerprint of
the filters it was issued for. -/
structure ListCursor where
  resourceVersion : Nat
  lastKey : ResourceKey
  fingerLabels : List Requirement
  fingerFields : List Requirement
deriving DecidableEq

/-- ListRequest of the proto. -/
structure ListRequest where
  nextPageToken : Option ListCursor
  resourceVersion : Nat
  versionMatch : ResourceVersionMatch
  limit : Nat
  options : ListOptions
deriving DecidableEq

/-- ResourceWrapper of the proto: version plus opaque payload. -/
structure ResourceWrapper where
  resourceVersion : Nat
  value : String
deriving DecidableEq

/-- ListResponse of the proto.  An unset remainingItemCount is none. -/
structure ListResponse where
  items : List ResourceWrapper
  nextPageToken : Option ListCursor
  resourceVersion : Nat
  remainingItemCount : Option Nat
deriving DecidableEq

/-- Lookup in a label or field pair list. -/
def lookupPair : List (String × String) → String → Option String
  | [], _ => none
  | (k, v) :: rest, key => if k = key then some v else lookupPair rest key

/-- Modelled from the spec: evaluation of one Requirement against a
pair list, mirroring the label selector operator grammar (equality,
inequality, set membership, existence); an unknown operator matches
everything rather than rejecting, keeping the filter advisory. -/
def reqMatches (pairs : List (String × String)) (r : Requirement) : Bool :=
  if r.operator = "=" ∨ r.operator = "==" ∨ r.operator = "in" then
    match lookupPair pairs r.key with
    | some v => r.values.contains v
    | none => false
  else if r.operator = "!=" ∨ r.operator = "notin" then
    match lookupPair pairs r.key with
    | some v => !(r.values.contains v)
    | none => true
  else if r.operator = "exists" then (lookupPair pairs r.key).isSome
  else if r.operator = "!" then (lookupPair pairs r.key).isNone
  else true

/-- The field pairs of an item visible to field matchers. -/
def fieldPairs (k : ResourceKey) : List (String × String) :=
  [("metadata.name", k.name), ("metadata.namespace", k.ns)]

/-- All label requirements against the record labels and all field
requirements against the key fields. -/
def itemMatches (options : ListOptions) (kv : ResourceKey × Record) : Bool :=
  options.labels.all (reqMatches kv.2.labels)
    && options.fields.all (reqMatches (fieldPairs kv.1))

/-- Collection scope: namespace, group and resource must match. -/
def inScope (scope key : ResourceKey) : Bool :=
  decide (scope.ns = key.ns ∧ scope.group = key.group ∧ scope.resource = key.resource)

/-- Scope plus advisory filters. -/
def listMatch (options : ListOptions) (kv : ResourceKey × Record) : Bool :=
  inScope options.key kv.1 && itemMatches options kv

/-- The key ordering lifted to keyed records. -/
def kvLe (a b : ResourceKey × Record) : Prop := keyLe a.1 b.1 = true

instance : DecidableRel kvLe :=
  fun a b => (inferInstance : Decidable (keyLe a.1 b.1 = true))

/-- Sort a keyed collection in the reference key ordering. -/
def sortKvs (m : List (ResourceKey × Record)) : List (ResourceKey × Record) :=
  List.insertionSort kvLe m

/-- Modelled from the spec: the scoped, advisory filtered, sorted
collection pinned at version v. -/
def collectionAt (s : StoreState) (v : Nat) (options : ListOptions) :
    List (ResourceKey × Record) :=
  sortKvs ((snapshotAt s v).filter (listMatch options))

/-- The continuation token issued by a page of this request. -/
def cursorFor (req : ListRequest) (v : Nat) (k : ResourceKey) : ListCursor :=
  { resourceVersion := v, lastKey := k,
    fingerLabels := req.options.labels, fingerFields := req.options.fields }

/-- Keep only items strictly after the cursor key. -/
def afterKey : Option ResourceKey → (ResourceKey × Record) → Bool
  | none, _ => true
  | some lk, kv => keyLt lk kv.1

/-- The wire item for a stored record. -/
def toWrapper (kv : ResourceKey × Record) : ResourceWrapper :=
  { resourceVersion := kv.2.resourceVersion, value := kv.2.value }

/-- Modelled from the spec: one page of a listing pinned at v starting
after the cursor key.  limit 0 means unlimited.  remainingItemCount is
only set on a non final page of an unfiltered listing. -/
def listAt (s : StoreState) (req : ListRequest) (v : Nat)
    (startAfter : Option ResourceKey) : ListResponse :=
  let rest0 := (collectionAt s v req.options).filter (afterKey startAfter)
  let page := if req.limit = 0 then rest0 else rest0.take req.limit
  let rest := if req.limit = 0 then [] else rest0.drop req.limit
  let nextTok :=
    match rest, page.getLast? with
    | [], _ => none
    | _ :: _, some last => some (cursorFor req v last.1)
    | _ :: _, none => none
  let remaining :=
    if req.options.labels.isEmpty && req.options.fields.isEmpty then
      match rest with
      | [] => none
      | _ :: _ => some rest.length
    else none
  { items := page.map toWrapper, nextPageToken := nextTok,
    resourceVersion := v, remainingItemCount := remaining }

/-- Modelled from the spec: List.  A continuation token must carry the
filter fingerprint of the request and pins the version it was issued
at; without a token, Exact pins the requested version (which must be
set and retained) and NotOlderThan serves the latest snapshot. -/
def listOp (s : StoreState) (req : ListRequest) : Except ErrKind ListResponse :=
  match req.nextPageToken with
  | some cur =>
    if cur.fingerLabels = req.options.labels ∧ cur.fingerFields = req.options.fields then
      .ok (listAt s req cur.resourceVersion (some cur.lastKey))
    else .error .invalid
  | none =>
    match req.versionMatch with
    | .Exact =>
      if req.resourceVersion = 0 then .error .invalid
      else if s.counter < req.resourceVersion then .error .versionTooOld
      else .ok (listAt s req req.resourceVersion none)
    | .NotOlderThan =>
      if s.counter < req.resourceVersion then .error .versionTooOld
      else .ok (listAt s req s.counter none)

/-- Drive a paginated listing to completion: issue the request, then
follow continuation tokens, letting a batch of interleaved writes
commit before each subsequent page; fuel bounds the page count. -/
def collectPages (s : StoreState) (interleave : List (List Op)) (fuel : Nat)
    (req : ListRequest) : Except ErrKind (List ResourceWrapper) :=
  match fuel with
  | 0 => .error .invalid
  | fuel + 1 =>
    match listOp s req with
    | .error e => .error e
    | .ok resp =>
      match resp.nextPageToken with
      | none => .ok resp.items
      | some tok =>
        match collectPages (execOps s (interleave.headD [])) interleave.tail fuel
            { req with nextPageToken := some tok } with
        | .error e => .error e
        | .ok restItems => .ok (resp.items ++ restItems)

/-! ### Watch hub -/

/-- WatchRequest of the proto: the starting version, whether to send
synthetic initial events, and whether to send a bookmark. -/
structure WatchRequest where
  since : Nat
  sendInitialEvents : Bool
  allowWatchBookmarks : Bool
deriving DecidableEq

/-- WatchEvent of the proto (the timestamp, wall clock time, is not
modelled). -/
structure WatchEvent where
  type : EventType
  version : Nat
  value : String
  previous : Option (Nat × String)
deriving DecidableEq

/-- The wire event for a commit. -/
def commitToEvent (c : Commit) : WatchEvent :=
  { type := c.type, version := c.version, value := c.value, previous := c.previous }

/-- Modelled from the spec: the synthetic ADDED events materializing
the current state, in the reference key order, sent in place of the
historical replay when initial events are requested. -/
def snapshotEvents (s : StoreState) : List WatchEvent :=
  (sortKvs (snapshotAt s s.counter)).map (fun kv =>
    { type := .added, version := kv.2.resourceVersion, value := kv.2.value,
      previous := none })

/-- The bookmark event marking that the subscriber is caught up to v. -/
def bookmarkEvent (v : Nat) : WatchEvent :=
  { type := .bookmark, version := v, value := "", previous := none }

/-- Modelled from the spec: the full event sequence a subscription
registered at state s0 receives: the initial snapshot when requested,
otherwise the replay of all retained commits after since; then one
bookmark when requested; then every live commit in commit order. -/
def watchEvents (s0 : StoreState) (req : WatchRequest) (live : List Commit) :
    List WatchEvent :=
  (if req.sendInitialEvents then snapshotEvents s0
   else (s0.log.filter (fun c => req.since < c.version)).map commitToEvent)
  ++ (if req.allowWatchBookmarks then [bookmarkEvent s0.counter] else [])
  ++ live.map commitToEvent

/-- The commits that reach a subscription live: everything the log
gained after registration. -/
def liveCommits (s0 s1 : StoreState) : List Commit := s1.log.drop s0.log.length

/-- Events that change state: neither BOOKMARK nor ERROR. -/
def isChangeEvent (e : WatchEvent) : Bool :=
  match e.type with
  | .bookmark => false
  | .error => false
  | _ => true

/-! ### Concrete keys and op sequences for witnesses -/

/-- A concrete full key. -/
def keyA : ResourceKey := { ns := "default", group := "g", resource := "dash", name := "a" }

/-- A concrete full key. -/
def keyB : ResourceKey := { ns := "default", group := "g", resource := "dash", name := "b" }

/-- A concrete full key. -/
def keyC : ResourceKey := { ns := "default", group := "g", resource := "dash", name := "c" }

/-- Writes producing one record that was created and then updated. -/
def opsCreateUpdate : List Op := [.create keyA "v1" [], .update keyA 1 "v2" []]

/-- One create, used as history before a watch registration. -/
def opsW0 : List Op := [.create keyA "v1" []]

/-- One update, used as live traffic after a watch registration. -/
def opsW1 : List Op := [.update keyA 1 "v2" []]

/-- Writes creating three records in one collection. -/
def opsThree : List Op :=
  [.create keyA "va" [], .create keyB "vb" [], .create keyC "vc" []]

/-- An unfiltered listing scope for the concrete collection. -/
def scopeAll : ListOptions :=
  { key := { ns := "default", group := "g", resource := "dash", name := "" },
    labels := [], fields := [] }

/-- The first page of a limit one listing of the three record
collection pinned at version 3. -/
def pageOneOfThree : ListResponse :=
  { items := [{ resourceVersion := 1, value := "va" }],
    nextPageToken := some
      { resourceVersion := 3, lastKey := keyA, fingerLabels := [], fingerFields := [] },
    resourceVersion := 3,
    remainingItemCount := some 2 }

/-- A listing scope carrying one label requirement with an unknown
operator. -/
def unknownOpOptions : ListOptions :=
  { key := { ns := "default", group := "g", resource := "dash", name := "" },
    labels := [{ key := "team", operator := "weird", values := [] }],
    fields := [] }

/-- The stored record produced by creating keyA with value va and one
team label on the empty store. -/
def recTeamA : Record :=
  { value := "va", labels := [("team", "a")], resourceVersion := 1, size := 2,
    hash := "va" }

/-- A concrete full key outside the first three. -/
def keyD : ResourceKey := { ns := "default", group := "g", resource := "dash", name := "d" }

/-- A batch of writes interleaved between two pages. -/
def c4interleave : List (List Op) := [[.create keyD "vd" []], [.delete keyA 1 ""]]

/-- An Exact mode page request. -/
def pageReq (tok : Option ListCursor) (v limit : Nat) (options : ListOptions) :
    ListRequest :=
  { nextPageToken := tok, resourceVersion := v, versionMatch := .Exact,
    limit := limit, options := options }

end ResourceStore

/-! ## Theorems -/

theorem charListCmp_self (l : List Char) : charListCmp l l = .eq := by
  induction l with
  | nil => rfl
  | cons a as ih => simp [charListCmp, ih]

theorem charListCmp_eq_eq {l₁ l₂ : List Char} (h : charListCmp l₁ l₂ = .eq) : l₁ = l₂ := by
  induction l₁ generalizing l₂ with
  | nil => cases l₂ with
    | nil => rfl
    | cons b bs => simp [charListCmp] at h
  | cons a as ih =>
    cases l₂ with
    | nil => simp [charListCmp] at h
    | cons b bs =>
      by_cases hab : a.toNat < b.toNat
      · simp [charListCmp, hab] at h
      · by_cases hba : b.toNat < a.toNat
        · simp [charListCmp, hab, hba] at h
        · have hv : a = b := by
            apply Char.ext
            have : a.toNat = b.toNat := by omega
            exact UInt32.toNat.inj this
          subst hv
          simp only [charListCmp, hab, if_neg, if_false] at h
          rw [ih h]

theorem charListCmp_swap (l₁ l₂ : List Char) :
    (charListCmp l₁ l₂).swap = charListCmp l₂ l₁ := by
  induction l₁ generalizing l₂ with
  | nil => cases l₂ <;> rfl
  | cons a as ih =>
    cases l₂ with
    | nil => rfl
    | cons b bs =>
      by_cases hab : a.toNat < b.toNat
      · have hba : ¬ b.toNat < a.toNat := by omega
        simp [charListCmp, hab, hba, Ordering.swap]
      · by_cases hba : b.toNat < a.toNat
        · simp [charListCmp, hab, hba, Ordering.swap]
        · simp [charListCmp, hab, hba, ih bs]

theorem charListCmp_lt_trans {l₁ l₂ l₃ : List Char}
    (h₁ : charListCmp l₁ l₂ = .lt) (h₂ : charListCmp l₂ l₃ = .lt) :
    charListCmp l₁ l₃ = .lt := by
  induction l₁ generalizing l₂ l₃ with
  | nil =>
    cases l₂ with
    | nil => simp [charListCmp] at h₁
    | cons b bs =>
      cases l₃ with
      | nil => simp [charListCmp] at h₂
      | cons c cs => simp [charListCmp]
  | cons a as ih =>
    cases l₂ with
    | nil => simp [charListCmp] at h₁
    | cons b bs =>
      cases l₃ with
      | nil => simp [charListCmp] at h₂
      | cons c cs =>
        by_cases hab : a.toNat < b.toNat <;> by_cases hbc : b.toNat < c.toNat
        · have hac : a.toNat < c.toNat := by omega
          simp [charListCmp, hac]
        · by_cases hcb : c.toNat < b.toNat
          · simp [charListCmp, hbc, hcb] at h₂
          · have hac : a.toNat < c.toNat := by omega
            simp [charListCmp, hac]
        · by_cases hba : b.toNat < a.toNat
          · simp [charListCmp, hab, hba] at h₁
          · have hac : a.toNat < c.toNat := by omega
            simp [charListCmp, hac]
        · by_cases hba : b.toNat < a.toNat
          · simp [charListCmp, hab, hba] at h₁
          · by_cases hcb : c.toNat < b.toNat
            · simp [charListCmp, hbc, hcb] at h₂
            · have hac : ¬ a.toNat < c.toNat := by omega
              have hca : ¬ c.toNat < a.toNat := by omega
              simp only [charListCmp, hab, hba, if_neg, if_false] at h₁
              simp only [charListCmp, hbc, hcb, if_neg, if_false] at h₂
              simp [charListCmp, hac, hca, ih h₁ h₂]

theorem strCmp_self (s : String) : strCmp s s = .eq := charListCmp_self s.data

theorem strCmp_eq_eq {s₁ s₂ : String} (h : strCmp s₁ s₂ = .eq) : s₁ = s₂ :=
  String.ext (charListCmp_eq_eq h)

theorem strCmp_swap (s₁ s₂ : String) : (strCmp s₁ s₂).swap = strCmp s₂ s₁ :=
  charListCmp_swap s₁.data s₂.data

theorem strCmp_lt_trans {s₁ s₂ s₃ : String}
    (h₁ : strCmp s₁ s₂ = .lt) (h₂ : strCmp s₂ s₃ = .lt) : strCmp s₁ s₃ = .lt :=
  charListCmp_lt_trans h₁ h₂
namespace PluginClient

/-! ### Correctness of the swap loop -/

theorem listSwap_cons_succ (x : α) (l : List α) (i j : Nat) :
    listSwap (x :: l) (i + 1) (j + 1) = x :: listSwap l i j := by
  unfold listSwap
  cases h1 : l[i]? <;> cases h2 : l[j]? <;>
    simp [List.getElem?_cons_succ, h1, h2, List.set]

theorem listSwap_zero_append (x : α) (m : List α) (y : α) (c : List α) :
    listSwap (x :: (m ++ y :: c)) 0 (m.length + 1) = y :: (m ++ x :: c) := by
  unfold listSwap
  have h2 : (x :: (m ++ y :: c))[m.length + 1]? = some y := by
    rw [List.getElem?_cons_succ, List.getElem?_append_right (Nat.le_refl _)]
    simp
  rw [List.getElem?_cons_zero, h2]
  show ((x :: (m ++ y :: c)).set 0 y).set (m.length + 1) x = y :: (m ++ x :: c)
  simp only [List.set]
  rw [List.set_append, if_neg (by omega)]
  simp [List.set]

theorem listSwap_append_cons (a : List α) (x : α) (m : List α) (y : α) (c : List α) :
    listSwap (a ++ x :: (m ++ y :: c)) a.length (a.length + m.length + 1) =
      a ++ y :: (m ++ x :: c) := by
  induction a with
  | nil => simpa using listSwap_zero_append x m y c
  | cons hd tl ih =>
    show listSwap (hd :: (tl ++ x :: (m ++ y :: c))) (tl.length + 1)
        (tl.length + 1 + m.length + 1) = hd :: (tl ++ y :: (m ++ x :: c))
    have harith : tl.length + 1 + m.length + 1 = (tl.length + m.length + 1) + 1 := by omega
    rw [harith, listSwap_cons_succ, ih]

theorem swapLoop_seg (b a c : List α) :
    swapLoop (a ++ (b ++ c)) a.length (a.length + b.length - 1) =
      a ++ (b.reverse ++ c) := by
  match b with
  | [] =>
    unfold swapLoop
    rw [if_neg (by simp)]
    simp
  | x :: t =>
    rcases List.eq_nil_or_concat t with h | ⟨m, y, h⟩
    · subst h
      have hj : a.length + [x].length - 1 = a.length := by simp
      rw [hj]
      unfold swapLoop
      rw [if_neg (Nat.lt_irrefl _)]
      simp
    · subst h
      have hshape : a ++ ((x :: (m.concat y)) ++ c) = a ++ x :: (m ++ y :: c) := by
        simp
      have hlen : a.length + (x :: (m.concat y)).length - 1 = a.length + m.length + 1 := by
        simp only [List.length_cons, List.concat_eq_append, List.length_append,
          List.length_nil]
        omega
      rw [hshape, hlen]
      unfold swapLoop
      rw [if_pos (by omega), listSwap_append_cons]
      have hstep := swapLoop_seg m (a ++ [y]) (x :: c)
      have hshape2 : (a ++ [y]) ++ (m ++ (x :: c)) = a ++ y :: (m ++ x :: c) := by simp
      have hlen2 : (a ++ [y]).length = a.length + 1 := by simp
      rw [hshape2, hlen2] at hstep
      have hlen3 : a.length + 1 + m.length - 1 = a.length + m.length + 1 - 1 := by
        omega
      rw [hlen3] at hstep
      rw [hstep]
      simp
termination_by b.length
decreasing_by simp [h]; omega

theorem reverseMiddlewares_eq_reverse (middlewares : List ClientMiddleware) :
    reverseMiddlewares middlewares = middlewares.reverse := by
  have h := swapLoop_seg middlewares ([] : List ClientMiddleware) []
  simpa [reverseMiddlewares] using h

/-! ### Heap facts for the swap loop -/

theorem heapGet_heapSet_self (h : Heap) (r : Nat) (v : List ClientMiddleware)
    (hr : r < h.length) : heapGet (heapSet h r v) r = v := by
  simp [heapGet, heapSet, List.getD, List.getElem?_set_self hr]

theorem heapGet_heapSet_ne (h : Heap) (r m : Nat) (v : List ClientMiddleware)
    (hm : m ≠ r) : heapGet (heapSet h r v) m = heapGet h m := by
  simp [heapGet, heapSet, List.getD, List.getElem?_set_ne (fun e => hm e.symm)]

theorem swapLoopHeap_get_ne (h : Heap) (r i j m : Nat) (hm : m ≠ r) :
    heapGet (swapLoopHeap h r i j) m = heapGet h m := by
  by_cases hij : i < j
  · unfold swapLoopHeap
    rw [if_pos hij, swapLoopHeap_get_ne _ _ _ _ _ hm, heapGet_heapSet_ne _ _ _ _ hm]
  · unfold swapLoopHeap
    rw [if_neg hij]
termination_by j - i
decreasing_by omega

theorem swapLoopHeap_get_self (h : Heap) (r i j : Nat) (hr : r < h.length) :
    heapGet (swapLoopHeap h r i j) r = swapLoop (heapGet h r) i j := by
  by_cases hij : i < j
  · unfold swapLoopHeap swapLoop
    rw [if_pos hij, if_pos hij]
    rw [swapLoopHeap_get_self _ _ _ _ (by simpa [heapSet] using hr)]
    rw [heapGet_heapSet_self _ _ _ hr]
  · unfold swapLoopHeap swapLoop
    rw [if_neg hij, if_neg hij]
termination_by j - i
decreasing_by omega

/-- Claim C8: every Decorator method called with a nil request answers
errNilRequest (the Except.error carries no result, matching the nil Go
result), and CallResource and RunStream answer the sender error when
the sender is nil.  The decorator d (its client and its middleware
list) is universally quantified and the answer is the same constant
error for every d, so neither the wrapped client nor any middleware
can influence the outcome: in this pure embedding that is exactly the
statement that they are not invoked on these paths. -/
theorem c8_nil_request_short_circuits :
    ∀ (d : Decorator) (ctx : Ctx),
      d.queryData ctx none = .error .errNilRequest
      ∧ (∀ sender, d.callResource ctx none sender = .error .errNilRequest)
      ∧ d.collectMetrics ctx none = .error .errNilRequest
      ∧ d.checkHealth ctx none = .error .errNilRequest
      ∧ d.subscribeStream ctx none = .error .errNilRequest
      ∧ d.publishStream ctx none = .error .errNilRequest
      ∧ (∀ sender, d.runStream ctx none sender = .error .errNilRequest)
      ∧ d.validateAdmission ctx none = .error .errNilRequest
      ∧ d.mutateAdmission ctx none = .error .errNilRequest
      ∧ d.convertObjects ctx none = .error .errNilRequest
      ∧ (∀ req, d.callResource ctx (some req) none =
          .error (.goError "sender cannot be nil"))
      ∧ (∀ req, d.runStream ctx (some req) none =
          .error (.goError "sender cannot be nil")) := by
  intro d ctx
  exact ⟨rfl, fun _ => rfl, rfl, rfl, rfl, rfl, fun _ => rfl, rfl, rfl, rfl,
    fun _ => rfl, fun _ => rfl⟩

/-- Claim C9: with no middlewares, clientFromMiddlewares returns the
final client unchanged; in general it is the right fold of the wrapper
constructors over the final client, so the head middleware is the
outermost wrapper and the last middleware directly wraps the final
client, each applied exactly once; in particular peeling off the head
middleware wraps the chain of the rest. -/
theorem c9_clientFromMiddlewares_chain :
    (∀ finalClient : Client, clientFromMiddlewares [] finalClient = finalClient)
    ∧ (∀ (middlewares : List ClientMiddleware) (finalClient : Client),
        clientFromMiddlewares middlewares finalClient =
          middlewares.foldr (fun m next => m.createClientMiddleware next) finalClient)
    ∧ (∀ (m : ClientMiddleware) (rest : List ClientMiddleware) (finalClient : Client),
        clientFromMiddlewares (m :: rest) finalClient =
          m.createClientMiddleware (clientFromMiddlewares rest finalClient)) := by
  have hfold : ∀ (middlewares : List ClientMiddleware) (finalClient : Client),
      clientFromMiddlewares middlewares finalClient =
        middlewares.foldr (fun m next => m.createClientMiddleware next) finalClient := by
    intro middlewares finalClient
    cases middlewares with
    | nil => rfl
    | cons m rest =>
      show clientFromMiddlewares (m :: rest) finalClient = _
      unfold clientFromMiddlewares
      rw [if_neg (by simp), reverseMiddlewares_eq_reverse, List.foldl_reverse]
  exact ⟨fun c => hfold [] c, hfold, fun m rest c => by rw [hfold, hfold]; rfl⟩

/-- Claim C10: NewDecorator fails exactly on a nil client and otherwise
returns the decorator holding the given client and middlewares; and in
the reference heap model, reverseMiddlewares writes only the freshly
allocated copy, so the slice reachable through the argument reference
is unchanged while the returned reference holds the reversal. -/
theorem c10_newDecorator_and_reverse_no_mutation :
    ∀ (client : Client) (middlewares : List ClientMiddleware) (h : Heap) (mref : Nat),
      mref < h.length →
      NewDecorator none middlewares = .error (.goError "client cannot be nil")
      ∧ NewDecorator (some client) middlewares =
          .ok { client := client, middlewares := middlewares }
      ∧ heapGet (reverseMiddlewaresHeap h mref).1 mref = heapGet h mref
      ∧ heapGet (reverseMiddlewaresHeap h mref).1 (reverseMiddlewaresHeap h mref).2 =
          (heapGet h mref).reverse
      ∧ reverseMiddlewares (heapGet h mref) = (heapGet h mref).reverse := by
  intro client middlewares h mref hr
  refine ⟨rfl, rfl, ?_, ?_, reverseMiddlewares_eq_reverse _⟩
  · show heapGet (swapLoopHeap (h ++ [heapGet h mref]) h.length 0
      ((heapGet h mref).length - 1)) mref = heapGet h mref
    rw [swapLoopHeap_get_ne _ _ _ _ _ (Nat.ne_of_lt hr)]
    simp [heapGet, List.getD, List.getElem?_append_left hr]
  · show heapGet (swapLoopHeap (h ++ [heapGet h mref]) h.length 0
      ((heapGet h mref).length - 1)) h.length = (heapGet h mref).reverse
    rw [swapLoopHeap_get_self _ _ _ _ (by simp)]
    have hcell : heapGet (h ++ [heapGet h mref]) h.length = heapGet h mref := by
      simp [heapGet, List.getD, List.getElem?_append_right (Nat.le_refl _)]
    rw [hcell]
    have hrev := swapLoop_seg (heapGet h mref) ([] : List ClientMiddleware) []
    simpa using hrev

/-- Witness for C10 at a concrete one-cell heap. -/
theorem c10_newDecorator_and_reverse_no_mutation_witness :
    (0 : Nat) < ([[idMiddleware]] : Heap).length
    ∧ (NewDecorator none [] = .error (.goError "client cannot be nil")
      ∧ NewDecorator (some nopClient) [] =
          .ok { client := nopClient, middlewares := [] }
      ∧ heapGet (reverseMiddlewaresHeap [[idMiddleware]] 0).1 0 =
          heapGet [[idMiddleware]] 0
      ∧ heapGet (reverseMiddlewaresHeap [[idMiddleware]] 0).1
          (reverseMiddlewaresHeap [[idMiddleware]] 0).2 =
          (heapGet [[idMiddleware]] 0).reverse
      ∧ reverseMiddlewares (heapGet [[idMiddleware]] 0) =
          (heapGet [[idMiddleware]] 0).reverse) :=
  ⟨by decide,
    c10_newDecorator_and_reverse_no_mutation nopClient [] [[idMiddleware]] 0 (by decide)⟩


end PluginClient

namespace ResourceStore

/-! ### Key ordering facts -/

theorem strListCmp_self (l : List String) : strListCmp l l = .eq := by
  induction l with
  | nil => rfl
  | cons a as ih => simp [strListCmp, strCmp_self, ih]

theorem strListCmp_eq_eq {l₁ l₂ : List String} (h : strListCmp l₁ l₂ = .eq) : l₁ = l₂ := by
  induction l₁ generalizing l₂ with
  | nil =>
    cases l₂ with
    | nil => rfl
    | cons b bs => simp [strListCmp] at h
  | cons a as ih =>
    cases l₂ with
    | nil => simp [strListCmp] at h
    | cons b bs =>
      cases hab : strCmp a b with
      | eq =>
        simp only [strListCmp, hab] at h
        rw [strCmp_eq_eq hab, ih h]
      | lt => simp [strListCmp, hab] at h
      | gt => simp [strListCmp, hab] at h

theorem strListCmp_swap (l₁ l₂ : List String) :
    (strListCmp l₁ l₂).swap = strListCmp l₂ l₁ := by
  induction l₁ generalizing l₂ with
  | nil => cases l₂ <;> rfl
  | cons a as ih =>
    cases l₂ with
    | nil => rfl
    | cons b bs =>
      cases hab : strCmp a b with
      | eq =>
        have hba : strCmp b a = .eq := by rw [← strCmp_swap a b, hab]; rfl
        simp [strListCmp, hab, hba, ih bs]
      | lt =>
        have hba : strCmp b a = .gt := by rw [← strCmp_swap a b, hab]; rfl
        simp [strListCmp, hab, hba, Ordering.swap]
      | gt =>
        have hba : strCmp b a = .lt := by rw [← strCmp_swap a b, hab]; rfl
        simp [strListCmp, hab, hba, Ordering.swap]

theorem strListCmp_lt_trans {l₁ l₂ l₃ : List String}
    (h₁ : strListCmp l₁ l₂ = .lt) (h₂ : strListCmp l₂ l₃ = .lt) :
    strListCmp l₁ l₃ = .lt := by
  induction l₁ generalizing l₂ l₃ with
  | nil =>
    cases l₂ with
    | nil => simp [strListCmp] at h₁
    | cons b bs =>
      cases l₃ with
      | nil => simp [strListCmp] at h₂
      | cons c cs => simp [strListCmp]
  | cons a as ih =>
    cases l₂ with
    | nil => simp [strListCmp] at h₁
    | cons b bs =>
      cases l₃ with
      | nil => simp [strListCmp] at h₂
      | cons c cs =>
        cases hab : strCmp a b with
        | gt => simp [strListCmp, hab] at h₁
        | eq =>
          have he : a = b := strCmp_eq_eq hab
          subst he
          simp only [strListCmp, hab] at h₁
          cases hac : strCmp a c with
          | lt => simp [strListCmp, hac]
          | eq =>
            have he2 : a = c := strCmp_eq_eq hac
            subst he2
            simp only [strListCmp, hac] at h₂ ⊢
            exact ih h₁ h₂
          | gt => simp [strListCmp, hac] at h₂
        | lt =>
          cases hbc : strCmp b c with
          | lt =>
            have hac := strCmp_lt_trans hab hbc
            simp [strListCmp, hac]
          | eq =>
            have he : b = c := strCmp_eq_eq hbc
            subst he
            simp [strListCmp, hab]
          | gt => simp [strListCmp, hbc] at h₂

theorem keyCmp_self (a : ResourceKey) : keyCmp a a = .eq := strListCmp_self _

theorem keyCmp_eq_eq {a b : ResourceKey} (h : keyCmp a b = .eq) : a = b := by
  have h2 := strListCmp_eq_eq h
  cases a
  cases b
  simp [keyFields] at h2
  obtain ⟨e1, e2, e3, e4⟩ := h2
  subst e1
  subst e2
  subst e3
  subst e4
  rfl

theorem keyCmp_swap (a b : ResourceKey) : (keyCmp a b).swap = keyCmp b a :=
  strListCmp_swap _ _

theorem keyCmp_lt_trans {a b c : ResourceKey}
    (h₁ : keyCmp a b = .lt) (h₂ : keyCmp b c = .lt) : keyCmp a c = .lt :=
  strListCmp_lt_trans h₁ h₂

theorem keyLt_eq_true_iff {a b : ResourceKey} : keyLt a b = true ↔ keyCmp a b = .lt := by
  unfold keyLt
  cases h : keyCmp a b <;> simp

theorem keyLe_eq_true_iff {a b : ResourceKey} : keyLe a b = true ↔ keyCmp a b ≠ .gt := by
  unfold keyLe
  cases h : keyCmp a b <;> simp

theorem keyLt_irrefl (a : ResourceKey) : keyLt a a = false := by
  unfold keyLt
  rw [keyCmp_self]

theorem keyLt_asymm {a b : ResourceKey} (h : keyLt a b = true) : keyLt b a = false := by
  rw [keyLt_eq_true_iff] at h
  have h2 : keyCmp b a = .gt := by
    rw [← keyCmp_swap a b, h]
    rfl
  unfold keyLt
  rw [h2]

theorem keyLe_total (a b : ResourceKey) : keyLe a b = true ∨ keyLe b a = true := by
  cases h : keyCmp a b with
  | lt => exact Or.inl (by unfold keyLe; rw [h])
  | eq => exact Or.inl (by unfold keyLe; rw [h])
  | gt =>
    have h2 : keyCmp b a = .lt := by
      rw [← keyCmp_swap a b, h]
      rfl
    exact Or.inr (by unfold keyLe; rw [h2])

theorem keyLe_trans {a b c : ResourceKey}
    (h₁ : keyLe a b = true) (h₂ : keyLe b c = true) : keyLe a c = true := by
  rw [keyLe_eq_true_iff] at h₁ h₂ ⊢
  cases hab : keyCmp a b with
  | gt => exact absurd hab h₁
  | eq =>
    have he := keyCmp_eq_eq hab
    subst he
    exact h₂
  | lt =>
    cases hbc : keyCmp b c with
    | gt => exact absurd hbc h₂
    | eq =>
      have he := keyCmp_eq_eq hbc
      subst he
      rw [hab]
      simp
    | lt =>
      rw [keyCmp_lt_trans hab hbc]
      simp

theorem keyLe_ne_lt {a b : ResourceKey} (h₁ : keyLe a b = true) (h₂ : a ≠ b) :
    keyLt a b = true := by
  rw [keyLe_eq_true_iff] at h₁
  rw [keyLt_eq_true_iff]
  cases h : keyCmp a b with
  | lt => rfl
  | eq => exact absurd (keyCmp_eq_eq h) h₂
  | gt => exact absurd h h₁

/-! ### The global version invariant -/

/-- One mutating call either leaves the state unchanged (a failed
precondition) or bumps the counter by one and appends exactly one
change commit carrying the new counter as its version. -/
theorem execOp_step (s : StoreState) (op : Op) :
    execOp s op = s ∨
    ∃ c : Commit, (execOp s op).log = s.log ++ [c]
      ∧ (execOp s op).counter = s.counter + 1
      ∧ c.version = s.counter + 1
      ∧ changeType c.type := by
  cases op with
  | create key value labels =>
    simp only [execOp]
    unfold createOp
    split
    · dsimp only
      split
      · exact Or.inl rfl
      · exact Or.inr ⟨_, rfl, rfl, rfl, Or.inl rfl⟩
    · exact Or.inl rfl
  | update key resourceVersion value labels =>
    simp only [execOp]
    unfold updateOp
    split
    · split
      · exact Or.inl rfl
      · split
        · exact Or.inl rfl
        · exact Or.inr ⟨_, rfl, rfl, rfl, Or.inr (Or.inl rfl)⟩
    · exact Or.inl rfl
  | delete key resourceVersion uid =>
    simp only [execOp]
    unfold deleteOp
    split
    · split
      · exact Or.inl rfl
      · split
        · exact Or.inl rfl
        · split
          · exact Or.inl rfl
          · exact Or.inr ⟨_, rfl, rfl, rfl, Or.inr (Or.inr rfl)⟩
    · exact Or.inl rfl

theorem LogOk_initial : LogOk initialState := by
  refine ⟨?_, ?_, ?_⟩ <;> simp [initialState, LogOk]

theorem LogOk_execOp {s : StoreState} (hs : LogOk s) (op : Op) : LogOk (execOp s op) := by
  rcases execOp_step s op with h | ⟨c, hlog, hcounter, hversion, htype⟩
  · rw [h]; exact hs
  · obtain ⟨hbound, hpair, htypes⟩ := hs
    refine ⟨?_, ?_, ?_⟩
    · intro d hd
      rw [hlog] at hd
      rcases List.mem_append.mp hd with hd | hd
      · exact le_trans (hbound d hd) (by omega)
      · simp at hd
        subst hd
        omega
    · rw [hlog]
      rw [List.map_append, List.pairwise_append]
      refine ⟨hpair, by simp, ?_⟩
      intro a ha b hb
      simp at ha hb
      obtain ⟨d, hd, hda⟩ := ha
      subst hb
      rw [hversion]
      have := hbound d hd
      omega
    · intro d hd
      rw [hlog] at hd
      rcases List.mem_append.mp hd with hd | hd
      · exact htypes d hd
      · simp at hd
        subst hd
        exact htype

theorem LogOk_execOps {s : StoreState} (hs : LogOk s) (ops : List Op) :
    LogOk (execOps s ops) := by
  induction ops generalizing s with
  | nil => exact hs
  | cons op rest ih => exact ih (LogOk_execOp hs op)

/-- The log only grows, the counter never decreases, and everything
appended carries a version above the old counter. -/
theorem execOps_log_extends (s : StoreState) (ops : List Op) :
    ∃ t, (execOps s ops).log = s.log ++ t
      ∧ s.counter ≤ (execOps s ops).counter
      ∧ ∀ c ∈ t, s.counter < c.version := by
  induction ops generalizing s with
  | nil => exact ⟨[], by simp [execOps]⟩
  | cons op rest ih =>
    have hstep : execOps s (op :: rest) = execOps (execOp s op) rest := rfl
    obtain ⟨t, hlog, hcounter, hversion⟩ := ih (execOp s op)
    rcases execOp_step s op with h | ⟨c, hlog1, hcounter1, hversion1, _⟩
    · rw [h] at hlog hcounter hversion
      have hstep2 : execOps s (op :: rest) = execOps s rest := by rw [hstep, h]
      rw [hstep2]
      exact ⟨t, hlog, hcounter, hversion⟩
    · refine ⟨[c] ++ t, ?_, ?_, ?_⟩
      · rw [hstep, hlog, hlog1, List.append_assoc]
      · rw [hstep]
        rw [hcounter1] at hcounter
        omega
      · intro d hd
        rcases List.mem_append.mp hd with hd | hd
        · simp at hd
          subst hd
          omega
        · have h1 := hversion d hd
          rw [hcounter1] at h1
          omega

/-- Claim C1: over any sequence of Create, Update and Delete calls
from the empty store, the versions of the committed mutations (the
commit log) are strictly increasing in commit order, hence globally
unique across all keys: no version is ever issued twice. -/
theorem c1_resource_versions_strictly_increasing (ops : List Op) :
    ((execOps initialState ops).log.map (fun c => c.version)).Pairwise (· < ·) :=
  (LogOk_execOps LogOk_initial ops).2.1

/-! ### Association list facts -/

theorem getRec_mem {m : List (ResourceKey × Record)} {key : ResourceKey} {r : Record}
    (h : getRec m key = some r) : (key, r) ∈ m := by
  induction m with
  | nil => simp [getRec] at h
  | cons kv rest ih =>
    obtain ⟨k0, r0⟩ := kv
    by_cases hk : k0 = key
    · subst hk
      simp [getRec] at h
      subst h
      exact List.mem_cons_self _ _
    · rw [getRec, if_neg hk] at h
      exact List.mem_cons_of_mem _ (ih h)

theorem getRec_setRec_self (m : List (ResourceKey × Record)) (key : ResourceKey)
    (r : Record) : getRec (setRec m key r) key = some r := by
  induction m with
  | nil => simp [setRec, getRec]
  | cons kv rest ih =>
    obtain ⟨k0, r0⟩ := kv
    by_cases hk : k0 = key
    · subst hk
      simp [setRec, getRec]
    · rw [setRec, if_neg hk, getRec, if_neg hk]
      exact ih

theorem getRec_setRec_ne (m : List (ResourceKey × Record)) {key' key : ResourceKey}
    (r : Record) (hne : key' ≠ key) : getRec (setRec m key' r) key = getRec m key := by
  induction m with
  | nil => simp [setRec, getRec, hne]
  | cons kv rest ih =>
    obtain ⟨k0, r0⟩ := kv
    by_cases hk : k0 = key'
    · subst hk
      rw [setRec, if_pos rfl, getRec, if_neg hne, getRec, if_neg hne]
    · rw [setRec, if_neg hk, getRec, getRec]
      by_cases hk2 : k0 = key
      · rw [if_pos hk2, if_pos hk2]
      · rw [if_neg hk2, if_neg hk2]
        exact ih

theorem getRec_delRec_ne (m : List (ResourceKey × Record)) {key' key : ResourceKey}
    (hne : key' ≠ key) : getRec (delRec m key') key = getRec m key := by
  induction m with
  | nil => simp [delRec, getRec]
  | cons kv rest ih =>
    obtain ⟨k0, r0⟩ := kv
    by_cases hk : k0 = key'
    · subst hk
      rw [delRec, if_pos rfl, getRec, if_neg hne]
    · rw [delRec, if_neg hk, getRec, getRec]
      by_cases hk2 : k0 = key
      · rw [if_pos hk2, if_pos hk2]
      · rw [if_neg hk2, if_neg hk2]
        exact ih

theorem mem_setRec {kv : ResourceKey × Record} {m : List (ResourceKey × Record)}
    {key : ResourceKey} {r : Record} (h : kv ∈ setRec m key r) :
    kv = (key, r) ∨ kv ∈ m := by
  induction m with
  | nil =>
    simp [setRec] at h
    exact Or.inl h
  | cons kv0 rest ih =>
    obtain ⟨k0, r0⟩ := kv0
    by_cases hk : k0 = key
    · subst hk
      rw [setRec, if_pos rfl] at h
      rcases List.mem_cons.mp h with h | h
      · exact Or.inl h
      · exact Or.inr (List.mem_cons_of_mem _ h)
    · rw [setRec, if_neg hk] at h
      rcases List.mem_cons.mp h with h | h
      · exact Or.inr (h ▸ List.mem_cons_self _ _)
      · rcases ih h with h | h
        · exact Or.inl h
        · exact Or.inr (List.mem_cons_of_mem _ h)

theorem mem_delRec {kv : ResourceKey × Record} {m : List (ResourceKey × Record)}
    {key : ResourceKey} (h : kv ∈ delRec m key) : kv ∈ m := by
  induction m with
  | nil => simp [delRec] at h
  | cons kv0 rest ih =>
    obtain ⟨k0, r0⟩ := kv0
    by_cases hk : k0 = key
    · subst hk
      rw [delRec, if_pos rfl] at h
      exact List.mem_cons_of_mem _ h
    · rw [delRec, if_neg hk] at h
      rcases List.mem_cons.mp h with h | h
      · exact h ▸ List.mem_cons_self _ _
      · exact List.mem_cons_of_mem _ (ih h)

/-! ### Distinct keys through snapshots and sorting -/

theorem KeysOk_setRec {m : List (ResourceKey × Record)} {key : ResourceKey} {r : Record}
    (h : KeysOk m) : KeysOk (setRec m key r) := by
  induction m with
  | nil => simp [setRec, KeysOk]
  | cons kv rest ih =>
    obtain ⟨k0, r0⟩ := kv
    obtain ⟨hhead, htail⟩ := List.pairwise_cons.mp h
    by_cases hk : k0 = key
    · subst hk
      rw [setRec, if_pos rfl]
      exact List.pairwise_cons.mpr ⟨fun y hy => hhead y hy, htail⟩
    · rw [setRec, if_neg hk]
      refine List.pairwise_cons.mpr ⟨?_, ih htail⟩
      intro y hy
      rcases mem_setRec hy with h0 | h0
      · rw [h0]
        exact hk
      · exact hhead y h0

theorem KeysOk_delRec {m : List (ResourceKey × Record)} {key : ResourceKey}
    (h : KeysOk m) : KeysOk (delRec m key) := by
  induction m with
  | nil => simp [delRec, KeysOk]
  | cons kv rest ih =>
    obtain ⟨k0, r0⟩ := kv
    obtain ⟨hhead, htail⟩ := List.pairwise_cons.mp h
    by_cases hk : k0 = key
    · rw [delRec, if_pos hk]
      exact htail
    · rw [delRec, if_neg hk]
      exact List.pairwise_cons.mpr ⟨fun y hy => hhead y (mem_delRec hy), ih htail⟩

theorem KeysOk_applyCommit {m : List (ResourceKey × Record)} (h : KeysOk m)
    (c : Commit) : KeysOk (applyCommit m c) := by
  unfold applyCommit
  split
  · exact KeysOk_setRec h
  · exact KeysOk_setRec h
  · exact KeysOk_delRec h
  · exact h

theorem KeysOk_foldl (cs : List Commit) :
    ∀ {m : List (ResourceKey × Record)}, KeysOk m → KeysOk (cs.foldl applyCommit m) := by
  induction cs with
  | nil => intro m h; exact h
  | cons c rest ih => intro m h; exact ih (KeysOk_applyCommit h c)

theorem KeysOk_snapshotAt (s : StoreState) (v : Nat) : KeysOk (snapshotAt s v) :=
  KeysOk_foldl _ (by simp [KeysOk])

theorem collectionAt_keysOk (s : StoreState) (v : Nat) (options : ListOptions) :
    KeysOk (collectionAt s v options) := by
  unfold collectionAt sortKvs
  have hperm := List.perm_insertionSort kvLe ((snapshotAt s v).filter (listMatch options))
  have hbase : KeysOk ((snapshotAt s v).filter (listMatch options)) :=
    List.Pairwise.filter _ (KeysOk_snapshotAt s v)
  have hsymm : ∀ {x y : ResourceKey × Record}, x.1 ≠ y.1 → y.1 ≠ x.1 :=
    fun h => h.symm
  exact (List.Perm.pairwise_iff hsymm hperm).mpr hbase

theorem collectionAt_sorted_le (s : StoreState) (v : Nat) (options : ListOptions) :
    (collectionAt s v options).Pairwise kvLe := by
  unfold collectionAt sortKvs
  haveI : IsTotal (ResourceKey × Record) kvLe := ⟨fun a b => keyLe_total a.1 b.1⟩
  haveI : IsTrans (ResourceKey × Record) kvLe := ⟨fun _ _ _ h₁ h₂ => keyLe_trans h₁ h₂⟩
  exact List.sorted_insertionSort kvLe _

theorem collectionAt_sorted_lt (s : StoreState) (v : Nat) (options : ListOptions) :
    (collectionAt s v options).Pairwise (fun x y => keyLt x.1 y.1 = true) := by
  have h1 := collectionAt_sorted_le s v options
  have h2 := collectionAt_keysOk s v options
  exact (h1.and h2).imp (fun hab => keyLe_ne_lt hab.1 hab.2)

/-! ### Snapshot stability under later writes -/

theorem snapshotAt_execOps (s : StoreState) (ops : List Op) {v : Nat}
    (hv : v ≤ s.counter) : snapshotAt (execOps s ops) v = snapshotAt s v := by
  obtain ⟨t, hlog, _, hversion⟩ := execOps_log_extends s ops
  unfold snapshotAt
  rw [hlog, List.filter_append]
  have ht : t.filter (fun c => decide (c.version ≤ v)) = [] := by
    rw [List.filter_eq_nil_iff]
    intro c hc
    have := hversion c hc
    simp
    omega
  rw [ht, List.append_nil]

theorem collectionAt_execOps (s : StoreState) (ops : List Op) {v : Nat}
    (hv : v ≤ s.counter) (options : ListOptions) :
    collectionAt (execOps s ops) v options = collectionAt s v options := by
  unfold collectionAt
  rw [snapshotAt_execOps s ops hv]

/-! ### Every stored key is a full valid key -/


theorem validKey_effectiveKey {s : StoreState} {key : ResourceKey}
    (h : validScope key = true) : validKey (effectiveKey s key) = true := by
  unfold effectiveKey
  by_cases hn : key.name = ""
  · rw [if_pos hn]
    unfold validKey validScope at *
    by_cases hg : key.group = ""
    · simp [hg] at h
    · by_cases hr : key.resource = ""
      · simp [hg, hr] at h
      · have hne : ("gen-" ++ toString (s.counter + 1) : String) ≠ "" := by
          intro he
          have hd := congrArg String.data he
          simp [String.data_append] at hd
        simp [hg, hr, hne]
  · rw [if_neg hn]
    unfold validKey
    rw [h, if_pos rfl, if_neg hn]

theorem RecordsOk_initial : RecordsOk initialState := by
  intro kv h
  simp [initialState] at h

theorem RecordsOk_execOp {s : StoreState} (hs : RecordsOk s) (op : Op) :
    RecordsOk (execOp s op) := by
  cases op with
  | create key value labels =>
    simp only [execOp]
    unfold createOp
    split
    · dsimp only
      split
      · exact hs
      · intro kv hkv
        rcases mem_setRec hkv with h | h
        · subst h
          exact validKey_effectiveKey (by assumption)
        · exact hs kv h
    · exact hs
  | update key resourceVersion value labels =>
    simp only [execOp]
    unfold updateOp
    split
    · split
      · exact hs
      · split
        · exact hs
        · intro kv hkv
          rcases mem_setRec hkv with h | h
          · subst h
            assumption
          · exact hs kv h
    · exact hs
  | delete key resourceVersion uid =>
    simp only [execOp]
    unfold deleteOp
    split
    · split
      · exact hs
      · split
        · exact hs
        · split
          · exact hs
          · intro kv hkv
            exact hs kv (mem_delRec hkv)
    · exact hs

theorem RecordsOk_execOps {s : StoreState} (hs : RecordsOk s) (ops : List Op) :
    RecordsOk (execOps s ops) := by
  induction ops generalizing s with
  | nil => exact hs
  | cons op rest ih => exact ih (RecordsOk_execOp hs op)

/-- Claim C3: in any reachable store, an Update or a Delete whose
expected resourceVersion differs from the version of the stored Record
fails with Conflict and returns the state completely unchanged (the
whole record set, the log and the counter). -/
theorem c3_stale_version_conflicts (ops : List Op) (key : ResourceKey)
    (resourceVersion : Nat) (value : String) (labels : List (String × String))
    (uid : String) (r : Record)
    (hget : getRec (execOps initialState ops).records key = some r)
    (hne : resourceVersion ≠ r.resourceVersion) :
    updateOp (execOps initialState ops) key resourceVersion value labels =
      (.error .conflict, execOps initialState ops)
    ∧ deleteOp (execOps initialState ops) key resourceVersion uid =
      (.error .conflict, execOps initialState ops) := by
  have hvalid : validKey key = true :=
    RecordsOk_execOps RecordsOk_initial ops (key, r) (getRec_mem hget)
  have hner : r.resourceVersion ≠ resourceVersion := fun h => hne h.symm
  constructor
  · unfold updateOp
    rw [if_pos hvalid, hget]
    dsimp only
    rw [if_pos hner]
  · unfold deleteOp
    rw [if_pos hvalid, hget]
    dsimp only
    rw [if_pos hner]

/-- Witness for C3: a store with one record at version 1; updating or
deleting it with expected version 99 fails with Conflict and leaves
the state unchanged. -/
theorem c3_stale_version_conflicts_witness :
    (getRec (execOps initialState
        [.create { ns := "default", group := "g", resource := "dash", name := "a" } "v1" []]).records
        { ns := "default", group := "g", resource := "dash", name := "a" } =
      some { value := "v1", labels := [], resourceVersion := 1, size := 2, hash := "v1" })
    ∧ (99 : Nat) ≠ 1
    ∧ (updateOp (execOps initialState
        [.create { ns := "default", group := "g", resource := "dash", name := "a" } "v1" []])
        { ns := "default", group := "g", resource := "dash", name := "a" } 99 "v2" [] =
      (.error .conflict, execOps initialState
        [.create { ns := "default", group := "g", resource := "dash", name := "a" } "v1" []])
    ∧ deleteOp (execOps initialState
        [.create { ns := "default", group := "g", resource := "dash", name := "a" } "v1" []])
        { ns := "default", group := "g", resource := "dash", name := "a" } 99 "" =
      (.error .conflict, execOps initialState
        [.create { ns := "default", group := "g", resource := "dash", name := "a" } "v1" []])) :=
  ⟨by rfl, by decide,
    c3_stale_version_conflicts
      [.create { ns := "default", group := "g", resource := "dash", name := "a" } "v1" []]
      { ns := "default", group := "g", resource := "dash", name := "a" } 99 "v2" [] ""
      { value := "v1", labels := [], resourceVersion := 1, size := 2, hash := "v1" }
      (by rfl) (by decide)⟩

/-- A call that does not mutate the key leaves its live Record in
place: Updates and Deletes of other keys act on other entries, and a
Create can never overwrite the existing live Record (at an occupied
key it fails with AlreadyExists, and its key generation only fills an
empty name). -/
theorem getRec_execOp_keep {s : StoreState} {key : ResourceKey} {r : Record}
    (hget : getRec s.records key = some r) (op : Op)
    (hop : opMutatesKey op key = false) : getRec (execOp s op).records key = some r := by
  cases op with
  | create k v l =>
    simp only [execOp]
    unfold createOp
    split
    · dsimp only
      split
      · exact hget
      · rename_i hnone
        have hne : effectiveKey s k ≠ key := by
          intro he
          rw [he, hget] at hnone
          exact Option.noConfusion hnone
        dsimp only
        rw [getRec_setRec_ne s.records _ hne]
        exact hget
    · exact hget
  | update k rv v l =>
    have hne : k ≠ key := by simpa [opMutatesKey] using hop
    simp only [execOp]
    unfold updateOp
    split
    · split
      · exact hget
      · split
        · exact hget
        · dsimp only
          rw [getRec_setRec_ne s.records _ hne]
          exact hget
    · exact hget
  | delete k rv uid =>
    have hne : k ≠ key := by simpa [opMutatesKey] using hop
    simp only [execOp]
    unfold deleteOp
    split
    · split
      · exact hget
      · split
        · exact hget
        · split
          · exact hget
          · dsimp only
            rw [getRec_delRec_ne s.records hne]
            exact hget
    · exact hget

theorem getRec_execOps_keep {s : StoreState} {key : ResourceKey} {r : Record}
    (hget : getRec s.records key = some r) (ops : List Op)
    (hops : ∀ op ∈ ops, opMutatesKey op key = false) :
    getRec (execOps s ops).records key = some r := by
  induction ops generalizing s with
  | nil => exact hget
  | cons op rest ih =>
    exact ih (getRec_execOp_keep hget op (hops op (List.mem_cons_self _ _)))
      (fun o ho => hops o (List.mem_cons_of_mem _ ho))

/-- Claim C6: a successful Create of a full key, followed by any
sequence of writes none of which mutates that key (Updates and Deletes
of other keys, and any Creates, which cannot overwrite a live Record),
followed by a Read of that key, returns exactly the value and the
resourceVersion the Create returned. -/
theorem c6_create_then_read (s : StoreState) (key : ResourceKey) (value : String)
    (labels : List (String × String)) (resp : CreateResponse) (s1 : StoreState)
    (ops : List Op) (hname : key.name ≠ "")
    (hc : createOp s key value labels = (.ok resp, s1))
    (hops : ∀ op ∈ ops, opMutatesKey op key = false) :
    readOp (execOps s1 ops) key 0 =
      .ok { resourceVersion := resp.resourceVersion, value := resp.value } := by
  unfold createOp at hc
  by_cases hv : validScope key = true
  · rw [if_pos hv] at hc
    have heff : effectiveKey s key = key := by
      unfold effectiveKey
      rw [if_neg hname]
    rw [heff] at hc
    dsimp only at hc
    cases hget : getRec s.records key with
    | some r0 =>
      rw [hget] at hc
      simp at hc
    | none =>
      rw [hget] at hc
      simp only [Prod.mk.injEq, Except.ok.injEq] at hc
      obtain ⟨hresp, hs1⟩ := hc
      have hrec : getRec s1.records key = some
          { value := value, labels := labels, resourceVersion := s.counter + 1,
            size := value.length, hash := hashOf value } := by
        rw [← hs1]
        exact getRec_setRec_self _ _ _
      have hkeep := getRec_execOps_keep hrec ops hops
      have hvk : validKey key = true := by
        unfold validKey
        rw [hv, if_pos rfl, if_neg hname]
      unfold readOp
      rw [if_pos hvk, if_pos rfl, hkeep, ← hresp]
  · rw [if_neg hv] at hc
    simp at hc

/-- Witness for C6: create a record at keyA, then create and update a
record at keyB in between, then read keyA back. -/
theorem c6_create_then_read_witness :
    keyA.name ≠ ""
    ∧ createOp initialState keyA "v1" [] =
      (.ok { resourceVersion := 1, value := "v1" }, execOps initialState opsW0)
    ∧ (∀ op ∈ ([.create keyB "vb" [], .update keyB 2 "vb2" []] : List Op),
        opMutatesKey op keyA = false)
    ∧ readOp (execOps (execOps initialState opsW0)
        [.create keyB "vb" [], .update keyB 2 "vb2" []]) keyA 0 =
      .ok { resourceVersion := 1, value := "v1" } :=
  ⟨by decide, by rfl, by decide,
    c6_create_then_read initialState keyA "v1" []
      { resourceVersion := 1, value := "v1" } (execOps initialState opsW0)
      [.create keyB "vb" [], .update keyB 2 "vb2" []]
      (by decide) (by rfl) (by decide)⟩


/-! ### Watch delivery -/

theorem isChangeEvent_commitToEvent {c : Commit} (h : changeType c.type) :
    isChangeEvent (commitToEvent c) = true := by
  rcases h with h | h | h <;> simp [isChangeEvent, commitToEvent, h]

/-- Claim C2, amended: for a subscription that does not request the
initial snapshot, the change events delivered (historical replay from
since = S followed by the live commits) are exactly the commits with
version above S, each once, and their versions are strictly
increasing.  With sendInitialEvents the synthetic snapshot replaces
the replay and the claim fails, see the counterexample. -/
theorem c2_watch_without_initial_events (ops0 ops1 : List Op) (S : Nat) (bm : Bool)
    (hS : S ≤ (execOps initialState ops0).counter) :
    (watchEvents (execOps initialState ops0)
        { since := S, sendInitialEvents := false, allowWatchBookmarks := bm }
        (liveCommits (execOps initialState ops0)
          (execOps (execOps initialState ops0) ops1))).filter isChangeEvent =
      ((execOps (execOps initialState ops0) ops1).log.filter
        (fun c => S < c.version)).map commitToEvent
    ∧ (((execOps (execOps initialState ops0) ops1).log.filter
        (fun c => S < c.version)).map (fun c => c.version)).Pairwise (· < ·) := by
  obtain ⟨t, hlog, hcnt, hver⟩ :=
    execOps_log_extends (execOps initialState ops0) ops1
  have hok0 : LogOk (execOps initialState ops0) := LogOk_execOps LogOk_initial ops0
  have hok1 : LogOk (execOps (execOps initialState ops0) ops1) :=
    LogOk_execOps hok0 ops1
  have hlive : liveCommits (execOps initialState ops0)
      (execOps (execOps initialState ops0) ops1) = t := by
    unfold liveCommits
    rw [hlog, List.drop_left]
  constructor
  · rw [hlive]
    unfold watchEvents
    simp only [Bool.false_eq_true, if_false]
    rw [List.filter_append, List.filter_append]
    have hA : ((((execOps initialState ops0).log.filter
        (fun c => S < c.version)).map commitToEvent).filter isChangeEvent) =
        (((execOps initialState ops0).log.filter
          (fun c => S < c.version)).map commitToEvent) := by
      rw [List.filter_map, List.filter_eq_self.mpr]
      intro c hc
      have hmem : c ∈ (execOps initialState ops0).log := List.mem_of_mem_filter hc
      exact isChangeEvent_commitToEvent (hok0.2.2 c hmem)
    have hB : ((if bm then [bookmarkEvent (execOps initialState ops0).counter]
        else []).filter isChangeEvent) = [] := by
      cases bm <;> simp [isChangeEvent, bookmarkEvent]
    have hC : ((t.map commitToEvent).filter isChangeEvent) = t.map commitToEvent := by
      rw [List.filter_map, List.filter_eq_self.mpr]
      intro c hc
      have hmem : c ∈ (execOps (execOps initialState ops0) ops1).log := by
        rw [hlog]
        exact List.mem_append_right _ hc
      exact isChangeEvent_commitToEvent (hok1.2.2 c hmem)
    rw [hA, hB, hC]
    rw [hlog, List.filter_append]
    have ht : t.filter (fun c => decide (S < c.version)) = t := by
      rw [List.filter_eq_self]
      intro c hc
      have := hver c hc
      simp
      omega
    rw [ht, List.map_append, List.append_nil]
  · have hvers := hok1.2.1
    have hpair : (execOps (execOps initialState ops0) ops1).log.Pairwise
        (fun a b => a.version < b.version) := List.pairwise_map.mp hvers
    exact List.pairwise_map.mpr (List.Pairwise.filter _ hpair)

/-- Witness for the amended C2 at a concrete store: one record created
before registration, one update arriving live. -/
theorem c2_watch_without_initial_events_witness :
    0 ≤ (execOps initialState opsW0).counter
    ∧ ((watchEvents (execOps initialState opsW0)
          { since := 0, sendInitialEvents := false, allowWatchBookmarks := true }
          (liveCommits (execOps initialState opsW0)
            (execOps (execOps initialState opsW0) opsW1))).filter isChangeEvent =
        ((execOps (execOps initialState opsW0) opsW1).log.filter
          (fun c => 0 < c.version)).map commitToEvent
      ∧ (((execOps (execOps initialState opsW0) opsW1).log.filter
          (fun c => 0 < c.version)).map (fun c => c.version)).Pairwise (· < ·)) :=
  ⟨by decide, c2_watch_without_initial_events opsW0 opsW1 0 true (by decide)⟩

/-- Counterexample to C2 as stated: with sendInitialEvents = true on a
store whose record was created at version 1 and updated to version 2,
the subscriber at since = 0 receives only the synthetic ADDED event at
version 2; the commit at version 1 is greater than since but is never
delivered, so the delivered events are not the set of all commits
above since. -/
theorem c2_counterexample :
    0 < 1
    ∧ 1 ∈ (execOps initialState opsCreateUpdate).log.map (fun c => c.version)
    ∧ 1 ∉ ((watchEvents (execOps initialState opsCreateUpdate)
        { since := 0, sendInitialEvents := true, allowWatchBookmarks := false }
        (liveCommits (execOps initialState opsCreateUpdate)
          (execOps initialState opsCreateUpdate))).filter isChangeEvent).map
        (fun e => e.version) := by decide

/-! ### The remaining item count -/

theorem listAt_remaining (s : StoreState) (req : ListRequest) (v : Nat)
    (startAfter : Option ResourceKey) :
    ((req.options.labels ≠ [] ∨ req.options.fields ≠ []) →
      (listAt s req v startAfter).remainingItemCount = none)
    ∧ ((listAt s req v startAfter).nextPageToken = none →
      (listAt s req v startAfter).remainingItemCount = none)
    ∧ (∀ n, (listAt s req v startAfter).remainingItemCount = some n →
        (listAt s req v startAfter).nextPageToken ≠ none
        ∧ req.options.labels = [] ∧ req.options.fields = [] ∧ 0 < n) := by
  unfold listAt
  dsimp only
  by_cases hlim : req.limit = 0
  · refine ⟨?_, ?_, ?_⟩
    · intro hfilters
      simp only [hlim, if_pos rfl]
      rcases hfilters with h | h <;> simp [List.isEmpty_iff, h]
    · intro _
      simp [hlim]
    · intro n hn
      simp only [hlim, if_pos rfl] at hn
      by_cases he : req.options.labels.isEmpty && req.options.fields.isEmpty
      · rw [if_pos he] at hn
        simp at hn
      · rw [if_neg he] at hn
        simp at hn
  · cases hdrop : ((collectionAt s v req.options).filter (afterKey startAfter)).drop
        req.limit with
    | nil =>
      refine ⟨?_, ?_, ?_⟩
      · intro hfilters
        simp [hlim, hdrop]
      · intro _
        simp [hlim, hdrop]
      · intro n hn
        simp only [if_neg hlim, hdrop] at hn
        by_cases he : req.options.labels.isEmpty && req.options.fields.isEmpty
        · rw [if_pos he] at hn
          simp at hn
        · rw [if_neg he] at hn
          simp at hn
    | cons r rs =>
      have hlen : req.limit <
          ((collectionAt s v req.options).filter (afterKey startAfter)).length := by
        by_contra hcon
        have : ((collectionAt s v req.options).filter (afterKey startAfter)).drop
            req.limit = [] := List.drop_eq_nil_iff.mpr (by omega)
        rw [this] at hdrop
        exact List.noConfusion hdrop
      have hpage : ((collectionAt s v req.options).filter
          (afterKey startAfter)).take req.limit ≠ [] := by
        intro he
        have hl := congrArg List.length he
        rw [List.length_take, List.length_nil] at hl
        rcases Nat.min_eq_zero_iff.mp hl with h | h
        · exact hlim h
        · omega
      have hlast : (((collectionAt s v req.options).filter
          (afterKey startAfter)).take req.limit).getLast? =
          some ((((collectionAt s v req.options).filter
            (afterKey startAfter)).take req.limit).getLast hpage) :=
        List.getLast?_eq_getLast _ hpage
      refine ⟨?_, ?_, ?_⟩
      · intro hfilters
        simp only [if_neg hlim, hdrop]
        rcases hfilters with h | h <;> simp [List.isEmpty_iff, h]
      · intro htok
        simp only [if_neg hlim, hdrop, hlast] at htok
        exact absurd htok (by simp)
      · intro n hn
        simp only [if_neg hlim, hdrop] at hn
        by_cases he : req.options.labels.isEmpty && req.options.fields.isEmpty
        · rw [if_pos he] at hn
          simp only [Option.some.injEq] at hn
          have hemp := he
          rw [Bool.and_eq_true, List.isEmpty_iff, List.isEmpty_iff] at hemp
          rw [List.length_cons] at hn
          refine ⟨?_, hemp.1, hemp.2, by omega⟩
          simp only [if_neg hlim, hdrop, hlast]
          simp
        · rw [if_neg he] at hn
          simp at hn

/-- Claim C7: in every successful List response, remainingItemCount is
unset whenever a label or field filter was supplied and whenever the
listing is complete (no continuation token); when it is set, the page
is a non final page of an unfiltered listing and the estimate is
positive. -/
theorem c7_remaining_item_count (s : StoreState) (req : ListRequest)
    (resp : ListResponse) (h : listOp s req = .ok resp) :
    ((req.options.labels ≠ [] ∨ req.options.fields ≠ []) →
      resp.remainingItemCount = none)
    ∧ (resp.nextPageToken = none → resp.remainingItemCount = none)
    ∧ (∀ n, resp.remainingItemCount = some n →
        resp.nextPageToken ≠ none ∧ req.options.labels = []
        ∧ req.options.fields = [] ∧ 0 < n) := by
  unfold listOp at h
  split at h
  · split at h
    · simp only [Except.ok.injEq] at h
      subst h
      exact listAt_remaining s req _ _
    · simp at h
  · split at h
    · split at h
      · simp at h
      · split at h
        · simp at h
        · simp only [Except.ok.injEq] at h
          subst h
          exact listAt_remaining s req _ _
    · split at h
      · simp at h
      · simp only [Except.ok.injEq] at h
        subst h
        exact listAt_remaining s req _ _

/-- Witness for C7: the first page of a limit one listing over three
records carries a token and the estimate two; the conclusions hold on
that concrete response. -/
theorem c7_remaining_item_count_witness :
    listOp (execOps initialState opsThree)
      { nextPageToken := none, resourceVersion := 3, versionMatch := .Exact,
        limit := 1, options := scopeAll } = .ok pageOneOfThree
    ∧ (((scopeAll.labels ≠ [] ∨ scopeAll.fields ≠ []) →
        pageOneOfThree.remainingItemCount = none)
      ∧ (pageOneOfThree.nextPageToken = none →
        pageOneOfThree.remainingItemCount = none)
      ∧ (∀ n, pageOneOfThree.remainingItemCount = some n →
          pageOneOfThree.nextPageToken ≠ none ∧ scopeAll.labels = []
          ∧ scopeAll.fields = [] ∧ 0 < n)) :=
  ⟨by rfl,
    c7_remaining_item_count (execOps initialState opsThree)
      { nextPageToken := none, resourceVersion := 3, versionMatch := .Exact,
        limit := 1, options := scopeAll } pageOneOfThree (by rfl)⟩

/-! ### Advisory filtering never drops a match -/

/-- Claim C5: an unpaginated Exact listing returns every stored item
of the pinned snapshot that is in scope and satisfies the label and
field requirements (the filter may over return, it never under
returns); and a requirement with an unknown operator matches
everything instead of being rejected. -/
theorem c5_filter_never_drops (ops : List Op) (V : Nat) (options : ListOptions)
    (key : ResourceKey) (r : Record)
    (hV1 : 1 ≤ V) (hV : V ≤ (execOps initialState ops).counter)
    (hmem : (key, r) ∈ snapshotAt (execOps initialState ops) V)
    (hscope : inScope options.key key = true)
    (hmatch : itemMatches options (key, r) = true) :
    (∃ resp, listOp (execOps initialState ops)
        { nextPageToken := none, resourceVersion := V, versionMatch := .Exact,
          limit := 0, options := options } = .ok resp
      ∧ toWrapper (key, r) ∈ resp.items)
    ∧ (∀ (pairs : List (String × String)) (rq : Requirement),
        rq.operator ∉ (["=", "==", "in", "!=", "notin", "exists", "!"] : List String) →
        reqMatches pairs rq = true) := by
  constructor
  · refine ⟨listAt (execOps initialState ops)
      { nextPageToken := none, resourceVersion := V, versionMatch := .Exact,
        limit := 0, options := options } V none, ?_, ?_⟩
    · unfold listOp
      dsimp only
      rw [if_neg (by omega)]
      rw [if_neg (by omega)]
    · unfold listAt
      dsimp only
      rw [if_pos rfl]
      have hfilter : ((collectionAt (execOps initialState ops) V options).filter
          (afterKey none)) = collectionAt (execOps initialState ops) V options :=
        List.filter_eq_self.mpr (fun kv _ => rfl)
      rw [hfilter]
      apply List.mem_map_of_mem toWrapper
      unfold collectionAt sortKvs
      rw [(List.perm_insertionSort kvLe _).mem_iff]
      exact List.mem_filter.mpr ⟨hmem, by simp [listMatch, hscope, hmatch]⟩
  · intro pairs rq hop
    simp only [List.mem_cons, List.not_mem_nil, or_false, not_or] at hop
    obtain ⟨h1, h2, h3, h4, h5, h6, h7⟩ := hop
    simp [reqMatches, h1, h2, h3, h4, h5, h6, h7]

/-- Witness for C5: one record labelled team a, listed with a
requirement whose operator is unknown; the record is returned. -/
theorem c5_filter_never_drops_witness :
    (1 : Nat) ≤ 1
    ∧ 1 ≤ (execOps initialState [.create keyA "va" [("team", "a")]]).counter
    ∧ (keyA, recTeamA) ∈
      snapshotAt (execOps initialState [.create keyA "va" [("team", "a")]]) 1
    ∧ inScope unknownOpOptions.key keyA = true
    ∧ itemMatches unknownOpOptions (keyA, recTeamA) = true
    ∧ ((∃ resp, listOp (execOps initialState [.create keyA "va" [("team", "a")]])
          { nextPageToken := none, resourceVersion := 1, versionMatch := .Exact,
            limit := 0, options := unknownOpOptions } = .ok resp
        ∧ toWrapper (keyA, recTeamA) ∈ resp.items)
      ∧ (∀ (pairs : List (String × String)) (rq : Requirement),
          rq.operator ∉ (["=", "==", "in", "!=", "notin", "exists", "!"] : List String) →
          reqMatches pairs rq = true)) :=
  ⟨by decide, by decide, by decide, by decide, by decide,
    c5_filter_never_drops [.create keyA "va" [("team", "a")]] 1 unknownOpOptions keyA
      recTeamA (by decide) (by decide) (by decide) (by decide) (by decide)⟩

/-! ### Snapshot stable pagination -/

theorem afterKey_some (lk : ResourceKey) :
    afterKey (some lk) = fun kv => keyLt lk kv.1 := by
  funext kv
  rfl

theorem filter_keyLt_last (c a : List (ResourceKey × Record)) (l : ResourceKey × Record)
    (b : List (ResourceKey × Record))
    (hp : (c ++ a ++ l :: b).Pairwise (fun x y => keyLt x.1 y.1 = true)) :
    (c ++ a ++ l :: b).filter (fun kv => keyLt l.1 kv.1) = b := by
  rw [List.filter_append, List.filter_append]
  rw [List.pairwise_append] at hp
  obtain ⟨hca, hlb, hcross⟩ := hp
  rw [List.pairwise_cons] at hlb
  obtain ⟨hl, hb⟩ := hlb
  have hcf : c.filter (fun kv => keyLt l.1 kv.1) = [] := by
    rw [List.filter_eq_nil_iff]
    intro y hy
    have h1 : keyLt y.1 l.1 = true :=
      hcross y (List.mem_append_left a hy) l (List.mem_cons_self _ _)
    simp [keyLt_asymm h1]
  have haf : a.filter (fun kv => keyLt l.1 kv.1) = [] := by
    rw [List.filter_eq_nil_iff]
    intro y hy
    have h1 : keyLt y.1 l.1 = true :=
      hcross y (List.mem_append_right c hy) l (List.mem_cons_self _ _)
    simp [keyLt_asymm h1]
  have hlf : (l :: b).filter (fun kv => keyLt l.1 kv.1) = b := by
    rw [List.filter_cons_of_neg (by simp [keyLt_irrefl])]
    exact List.filter_eq_self.mpr (fun y hy => hl y hy)
  rw [hcf, haf, hlf]
  simp

/-- The engine of C4: following continuation tokens from any state
whose pinned collection still reads F delivers exactly the remainder
of F, whatever writes commit between pages. -/
theorem collectPages_go (V limit : Nat) (options : ListOptions)
    (F : List (ResourceKey × Record)) (hV1 : 1 ≤ V)
    (hpair : F.Pairwise (fun x y => keyLt x.1 y.1 = true)) :
    ∀ (fuel : Nat) (s1 : StoreState) (interleave : List (List Op))
      (tok : Option ListCursor) (rem pre : List (ResourceKey × Record)),
      V ≤ s1.counter →
      collectionAt s1 V options = F →
      (match tok with
       | none => rem = F
       | some cur => cur.resourceVersion = V ∧ cur.fingerLabels = options.labels
           ∧ cur.fingerFields = options.fields
           ∧ rem = F.filter (fun kv => keyLt cur.lastKey kv.1)) →
      F = pre ++ rem →
      rem.length < fuel →
      collectPages s1 interleave fuel (pageReq tok V limit options) =
        .ok (rem.map toWrapper) := by
  intro fuel
  induction fuel with
  | zero =>
    intro s1 interleave tok rem pre _ _ _ _ hfuel
    omega
  | succ fuel ih =>
    intro s1 interleave tok rem pre hcnt hcoll htok hsuffix hfuel
    have finish : ∀ startAfter : Option ResourceKey,
        listOp s1 (pageReq tok V limit options) =
          .ok (listAt s1 (pageReq tok V limit options) V startAfter) →
        (collectionAt s1 V options).filter (afterKey startAfter) = rem →
        collectPages s1 interleave (fuel + 1) (pageReq tok V limit options) =
          .ok (rem.map toWrapper) := by
      intro startAfter hlist hrest0
      unfold collectPages
      rw [hlist]
      dsimp only
      unfold listAt
      dsimp only [pageReq]
      rw [hrest0]
      by_cases hlim : limit = 0
      · simp [hlim]
      · rw [if_neg hlim, if_neg hlim]
        cases hdrop : rem.drop limit with
        | nil =>
          dsimp only
          rw [List.take_of_length_le (List.drop_eq_nil_iff.mp hdrop)]
        | cons r rs =>
          have hlen : limit < rem.length := by
            have hl := congrArg List.length hdrop
            rw [List.length_drop, List.length_cons] at hl
            omega
          have hpagene : rem.take limit ≠ [] := by
            intro he
            have hl := congrArg List.length he
            rw [List.length_take, List.length_nil] at hl
            rcases Nat.min_eq_zero_iff.mp hl with h | h
            · exact hlim h
            · omega
          obtain ⟨pi, lastv, hpl⟩ : ∃ pi lastv, rem.take limit = pi ++ [lastv] :=
            ⟨(rem.take limit).dropLast, (rem.take limit).getLast hpagene,
              (List.dropLast_append_getLast hpagene).symm⟩
          have hlast2 : (rem.take limit).getLast? = some lastv := by
            rw [hpl]
            simp
          rw [hlast2]
          dsimp only
          have htake : rem.take limit ++ r :: rs = rem := by
            rw [← hdrop, List.take_append_drop]
          have hrem2 : rem = pi ++ lastv :: (r :: rs) := by
            rw [← htake, hpl]
            simp
          have hshape : F = pre ++ pi ++ lastv :: (r :: rs) := by
            rw [hsuffix, hrem2]
            simp
          have hfilter : F.filter (fun kv => keyLt lastv.1 kv.1) = r :: rs := by
            rw [hshape]
            apply filter_keyLt_last
            rw [← hshape]
            exact hpair
          obtain ⟨_, _, hcnt2, _⟩ := execOps_log_extends s1 (interleave.headD [])
          have htail := ih (execOps s1 (interleave.headD [])) interleave.tail
            (some { resourceVersion := V, lastKey := lastv.1,
                    fingerLabels := options.labels, fingerFields := options.fields })
            (r :: rs) (pre ++ rem.take limit)
            (by omega)
            (by rw [collectionAt_execOps s1 _ hcnt options, hcoll])
            ⟨rfl, rfl, rfl, hfilter.symm⟩
            (by
              rw [hsuffix, List.append_assoc]
              exact congrArg (fun l => pre ++ l) htake.symm)
            (by
              have hl := congrArg List.length hdrop
              rw [List.length_drop, List.length_cons] at hl
              rw [List.length_cons]
              omega)
          dsimp only [pageReq] at htail
          simp only [cursorFor]
          rw [htail]
          dsimp only
          rw [← List.map_append, htake]
    cases tok with
    | none =>
      apply finish none
      · unfold listOp pageReq
        dsimp only
        rw [if_neg (by omega), if_neg (by omega)]
      · rw [hcoll]
        have hfeq : F.filter (afterKey none) = F :=
          List.filter_eq_self.mpr (fun _ _ => rfl)
        rw [hfeq]
        exact htok.symm
    | some cur =>
      obtain ⟨hrv, hfl, hff, hremF⟩ := htok
      apply finish (some cur.lastKey)
      · unfold listOp pageReq
        dsimp only
        rw [if_pos ⟨hfl, hff⟩, hrv]
      · rw [hcoll, afterKey_some, ← hremF]

/-- Claim C4: an Exact listing pinned at V, paginated to completion
through continuation tokens with arbitrary batches of writes committing
between the pages, returns exactly the items of a single unpaginated
Exact listing at V (list equality, hence the same multiset); every
page is drawn from the snapshot pinned at V. -/
theorem c4_exact_pagination_snapshot_stable (ops0 : List Op)
    (interleave : List (List Op)) (V limit fuel : Nat) (options : ListOptions)
    (hV1 : 1 ≤ V) (hV : V ≤ (execOps initialState ops0).counter)
    (hfuel : (collectionAt (execOps initialState ops0) V options).length < fuel) :
    collectPages (execOps initialState ops0) interleave fuel
      (pageReq none V limit options) =
    (listOp (execOps initialState ops0) (pageReq none V 0 options)).map
      (fun resp => resp.items) := by
  have hgo := collectPages_go V limit options
    (collectionAt (execOps initialState ops0) V options) hV1
    (collectionAt_sorted_lt _ _ _) fuel (execOps initialState ops0) interleave none
    (collectionAt (execOps initialState ops0) V options) [] hV rfl rfl (by simp) hfuel
  rw [hgo]
  unfold listOp pageReq
  dsimp only
  rw [if_neg (by omega), if_neg (by omega)]
  unfold listAt
  dsimp only
  have hfeq : (collectionAt (execOps initialState ops0) V options).filter
      (afterKey none) = collectionAt (execOps initialState ops0) V options :=
    List.filter_eq_self.mpr (fun _ _ => rfl)
  rw [if_pos rfl, hfeq]
  rfl

/-- Witness for C4: three records pinned at version 3, paginated with
limit one while a fourth record is created and the first deleted
between the pages. -/
theorem c4_exact_pagination_snapshot_stable_witness :
    (1 : Nat) ≤ 3
    ∧ 3 ≤ (execOps initialState opsThree).counter
    ∧ (collectionAt (execOps initialState opsThree) 3 scopeAll).length < 5
    ∧ collectPages (execOps initialState opsThree) c4interleave 5
        (pageReq none 3 1 scopeAll) =
      (listOp (execOps initialState opsThree) (pageReq none 3 0 scopeAll)).map
        (fun resp => resp.items) :=
  ⟨by decide, by decide, by decide,
    c4_exact_pagination_snapshot_stable opsThree c4interleave 3 1 5 scopeAll
      (by decide) (by decide) (by decide)⟩

end ResourceStore

end Grafana
